import Mathlib

set_option maxRecDepth 8192

/-!
Verification of the address codec and `IP_List` range store of
`BitTornado/subnetparse.py` (Python 2).

Python strings are embedded as `List Char`; Python exceptions as
`Except PyErr`.  Bit strings keep the source's character representation
(`'0'`/`'1'` characters, with a transient `':'` marker inside the IPv6
encoder, exactly as in the source).
-/

/-- Python exception kinds raised by the modelled code: `ValueError`
(raised explicitly and by `int()`/`chr()`), `KeyError` (failed dict
lookup in `hexbinmap`), `TypeError` (`None - 96`). -/
inductive PyErr where
  | valueError : PyErr
  | keyError : PyErr
  | typeError : PyErr
deriving DecidableEq, Repr

instance {ε α : Type} [DecidableEq ε] [DecidableEq α] : DecidableEq (Except ε α) := fun a b =>
  match a, b with
  | .ok x, .ok y => if h : x = y then .isTrue (by rw [h]) else .isFalse (by simp [h])
  | .error x, .error y => if h : x = y then .isTrue (by rw [h]) else .isFalse (by simp [h])
  | .ok _, .error _ => .isFalse (by simp)
  | .error _, .ok _ => .isFalse (by simp)

/-- Python 2 byte-string `<` on characters (byte order; all inputs are
ASCII, so `Char.val` order coincides). -/
def charLt (a b : Char) : Bool := a.val < b.val

/-- Python 2 string `<`: lexicographic order, a proper prefix sorts
before its extensions. -/
def pyLt : List Char → List Char → Bool
  | [], [] => false
  | [], _ :: _ => true
  | _ :: _, [] => false
  | a :: as, b :: bs => charLt a b || (a == b && pyLt as bs)

/-- `_int_to_bitstring(x, bits)` of the source: the `bits`-wide
big-endian binary rendering of `x` as `'0'`/`'1'` characters (bit
`i` of the output, MSB first, is `(x >> (bits-1-i)) & 1`). -/
def bitsBE : Nat → Nat → List Char
  | 0, _ => []
  | w + 1, v => (if v / 2 ^ w % 2 = 1 then '1' else '0') :: bitsBE w v

/-- `charbinmap[o]`: the 8-bit rendering of a byte. -/
def charbinmap (o : Nat) : List Char := bitsBE 8 o

/-- `hexbinmap`: dict from the sixteen lowercase hex digits (built with
`'%x' % x`) to their 4-bit renderings, plus the extra key `'x'` mapped
to `'0000'` (used for left padding).  Any other character (including
uppercase hex) is absent, so a lookup raises `KeyError`. -/
def hexbinmap (c : Char) : Option (List Char) :=
  if c = 'x' then some (bitsBE 4 0)
  else if '0' ≤ c ∧ c ≤ '9' then some (bitsBE 4 (c.toNat - 48))
  else if 'a' ≤ c ∧ c ≤ 'f' then some (bitsBE 4 (c.toNat - 87))
  else none

/-- Python `s.split(sep)` for a one-character separator. -/
def pySplitOn (sep : Char) : List Char → List (List Char)
  | [] => [[]]
  | c :: t =>
    if c = sep then [] :: pySplitOn sep t
    else
      match pySplitOn sep t with
      | [] => [[c]]
      | p :: ps => (c :: p) :: ps

/-- ASCII decimal digit test. -/
def isDig (c : Char) : Bool := '0' ≤ c && c ≤ '9'

/-- ASCII hex digit test (both cases, as accepted by `isxdigit`). -/
def isHexDig (c : Char) : Bool :=
  isDig c || ('a' ≤ c && c ≤ 'f') || ('A' ≤ c && c ≤ 'F')

/-- Numeric value of a hex digit (either case). -/
def hexDigVal (c : Char) : Nat :=
  if isDig c then c.toNat - 48
  else if 'a' ≤ c && c ≤ 'f' then c.toNat - 87
  else c.toNat - 55

/-- Fold a digit string into a value in the given base. -/
def digitsVal (base : Nat) (acc : Nat) : List Char → Nat
  | [] => acc
  | c :: t => digitsVal base (base * acc + hexDigVal c) t

/-- Map a fallible function over a list, failing if any element
fails (the `Option` monad's `mapM`). -/
def optionMapM (f : α → Option β) : List α → Option (List β)
  | [] => some []
  | a :: t =>
    match f a, optionMapM f t with
    | some b, some bs => some (b :: bs)
    | _, _ => none

/-- Octal digit test. -/
def isOct (c : Char) : Bool := '0' ≤ c && c ≤ '7'

/-- The 32-bit overflow rejection applied while `inet_aton` accumulates
a component's value. -/
def capped (v : Nat) : Option Nat := if v < 2 ^ 32 then some v else none

/-- One dot-separated component as parsed by the C library `inet_aton`
behind `socket.inet_aton`: it must begin with a digit; a `0x`/`0X`
prefix selects base 16 (further digits optional), a plain leading `0`
selects base 8, otherwise base 10; every remaining character must be a
digit of the base; values above `0xffffffff` are rejected. -/
def inetPart (s : List Char) : Option Nat :=
  match s with
  | [] => none
  | c :: rest =>
    if c = '0' then
      match rest with
      | [] => some 0
      | d :: hs =>
        if d = 'x' ∨ d = 'X' then
          if hs.all isHexDig then capped (digitsVal 16 0 hs) else none
        else if rest.all isOct then capped (digitsVal 8 0 rest) else none
    else if isDig c ∧ s.all isDig then capped (digitsVal 10 0 s) else none

/-- `socket.inet_aton`, per its documented behavior ("also accepts
strings with less than three dots", see inet(3)): one to four
dot-separated numeric components; with `n` components the first `n-1`
must each fit in one byte and the last fills the remaining `5-n`
bytes.  Returns the packed 32-bit value. -/
def inet_aton (s : List Char) : Option Nat :=
  let parts := pySplitOn '.' s
  match optionMapM inetPart parts with
  | none => none
  | some vals =>
    match vals with
    | [a] => some a
    | [a, b] => if a ≤ 255 ∧ b < 2 ^ 24 then some (a * 2 ^ 24 + b) else none
    | [a, b, c] =>
      if a ≤ 255 ∧ b ≤ 255 ∧ c < 2 ^ 16 then
        some (a * 2 ^ 24 + b * 2 ^ 16 + c) else none
    | [a, b, c, d] =>
      if a ≤ 255 ∧ b ≤ 255 ∧ c ≤ 255 ∧ d ≤ 255 then
        some (a * 2 ^ 24 + b * 2 ^ 16 + c * 2 ^ 8 + d) else none
    | _ => none

/-- The four bytes of a packed 32-bit address, big-endian. -/
def ipv4bytes (v : Nat) : List Nat :=
  [v / 2 ^ 24 % 256, v / 2 ^ 16 % 256, v / 2 ^ 8 % 256, v % 256]

/-- `to_bitfield_ipv4`: `''.join(charbinmap[ord(i)] for i in
socket.inet_aton(ip))`; a `socket.error` is re-raised as
`ValueError("bad address")`. -/
def to_bitfield_ipv4 (ip : List Char) : Except PyErr (List Char) :=
  match inet_aton ip with
  | some v => .ok ((ipv4bytes v).map charbinmap).flatten
  | none => .error .valueError

/-- The hextet branch of the IPv6 encoder: left-pad with `'x'` to four
characters and expand each character through `hexbinmap` (`KeyError`
on a character that is not a key). -/
def hextetBits (n : List Char) : Except PyErr (List Char) :=
  match optionMapM hexbinmap (List.replicate (4 - n.length) 'x' ++ n) with
  | some bs => .ok bs.flatten
  | none => .error .keyError

/-- The boundary normalization at the top of `to_bitfield_ipv6`:
`''` raises; `'::'` becomes `''`; a leading `'::'` drops one colon; a
bare leading `':'` raises; a trailing `'::'` drops one colon; a bare
trailing `':'` raises. -/
def ipv6Edit (t : List Char) : Except PyErr (List Char) :=
  if t = [] then .error .valueError
  else if t = [':', ':'] then .ok []
  else if t.take 2 = [':', ':'] then .ok t.tail
  else if t.head? = some ':' then .error .valueError
  else if t.drop (t.length - 2) = [':', ':'] then .ok t.dropLast
  else if t.getLast? = some ':' then .error .valueError
  else .ok t

/-- The component loop of `to_bitfield_ipv6`: an empty component marks
the double colon (a second one raises); a component containing `'.'`
is encoded as embedded IPv4 (padded on the right to 32 bits); any
other component is a hextet.  State is the `doublecolon` flag and the
accumulated string `b`. -/
def ipv6Parts : Bool → List Char → List (List Char) → Except PyErr (Bool × List Char)
  | dc, b, [] => .ok (dc, b)
  | dc, b, n :: rest =>
    if n = [] then
      if dc then .error .valueError
      else ipv6Parts true (b ++ [':']) rest
    else if n.contains '.' then
      match to_bitfield_ipv4 n with
      | .ok v4 => ipv6Parts dc (b ++ v4 ++ List.replicate (32 - v4.length) '0') rest
      | .error e => .error e
    else
      match hextetBits n with
      | .ok hb => ipv6Parts dc (b ++ hb) rest
      | .error e => .error e

/-- `to_bitfield_ipv6`: boundary normalization, split on `':'`, the
component loop, then expansion of the double-colon marker with
`'0' * (129 - len(b))` zeros, and the final `len(b) == 128` check. -/
def to_bitfield_ipv6 (t : List Char) : Except PyErr (List Char) :=
  match ipv6Edit t with
  | .error e => .error e
  | .ok ip =>
    match ipv6Parts false [] (pySplitOn ':' ip) with
    | .error e => .error e
    | .ok (dc, b) =>
      let b :=
        if dc then
          let pos := b.indexOf ':'
          b.take pos ++ List.replicate (129 - b.length) '0' ++ b.drop (pos + 1)
        else b
      if b.length = 128 then .ok b else .error .valueError

/-- `ipv4addrmask = to_bitfield_ipv6('::ffff:0:0')[:96]`, computed once
at module load. -/
def ipv4addrmask : List Char :=
  match to_bitfield_ipv6 "::ffff:0:0".data with
  | .ok b => b.take 96
  | .error _ => []

/-- Python `str(n)` for a nonnegative integer: decimal digits, no
leading zeros. -/
def natToDec (n : Nat) : List Char := Nat.toDigits 10 n

/-- `int(s, 2)` on a binary digit string (as produced by the codec). -/
def binVal (s : List Char) : Nat := digitsVal 2 0 s

/-- The IPv4 decoding loop inside `ipv6_to_ipv4`: four 8-bit groups,
each `str(int(group, 2))`, joined with dots. -/
def decode32 (b : List Char) : List Char :=
  natToDec (binVal (b.take 8)) ++ '.' ::
  natToDec (binVal ((b.drop 8).take 8)) ++ '.' ::
  natToDec (binVal ((b.drop 16).take 8)) ++ '.' ::
  natToDec (binVal ((b.drop 24).take 8))

/-- `ipv6_to_ipv4`: encode, require the IPv4-mapped marker, decode the
last 32 bits to dotted-decimal. -/
def ipv6_to_ipv4 (ip : List Char) : Except PyErr (List Char) :=
  match to_bitfield_ipv6 ip with
  | .error e => .error e
  | .ok b =>
    if ipv4addrmask.isPrefixOf b then .ok (decode32 (b.drop (b.length - 32)))
    else .error .valueError

/-- Python whitespace as stripped by `str.strip()`. -/
def isPySpace (c : Char) : Bool :=
  c = ' ' || c = '\t' || c = '\n' || c = '\r' || c = '\x0b' || c = '\x0c'

/-- `str.strip()`. -/
def pyStrip (l : List Char) : List Char :=
  ((l.dropWhile isPySpace).reverse.dropWhile isPySpace).reverse

/-- `str.expandtabs()` with the default tab size 8: a tab advances the
column to the next multiple of 8; newlines reset the column. -/
def expandTabsAux : Nat → List Char → List Char
  | _, [] => []
  | col, c :: t =>
    if c = '\t' then
      List.replicate (8 - col % 8) ' ' ++ expandTabsAux (col + (8 - col % 8)) t
    else if c = '\n' ∨ c = '\r' then c :: expandTabsAux 0 t
    else c :: expandTabsAux (col + 1) t

def pyExpandtabs (l : List Char) : List Char := expandTabsAux 0 l

/-- The result of `line.split(sep, 1)[0]` guarded by the source's
`try`/`except` around tuple unpacking: the text before the first
occurrence of `sep`, or the whole line when `sep` is absent (the
unpacking of the 1-element list fails and the line stays unchanged). -/
def beforeFirst (sep : Char) (l : List Char) : List Char := l.takeWhile (· != sep)

/-- Python 2 `int(s)`: optional surrounding whitespace, one optional
sign, then one or more decimal digits. -/
def pyInt (s : List Char) : Except PyErr Int :=
  match pyStrip s with
  | '+' :: r => if r ≠ [] ∧ r.all isDig then .ok (digitsVal 10 0 r : Nat) else .error .valueError
  | '-' :: r => if r ≠ [] ∧ r.all isDig then .ok (-((digitsVal 10 0 r : Nat) : Int)) else .error .valueError
  | r => if r ≠ [] ∧ r.all isDig then .ok (digitsVal 10 0 r : Nat) else .error .valueError

/-- Python slice `l[:k]` with a possibly negative (or past-the-end)
integer bound. -/
def pySliceTo (l : List Char) (k : Int) : List Char :=
  if 0 ≤ k then l.take k.toNat else l.take (l.length - (-k).toNat)

/-- Python slice `l[:k]` where `k` may also be `None` (no truncation),
as happens when `read_fieldlist` finds no `/depth` field. -/
def sliceOpt (l : List Char) : Option Int → List Char
  | none => l
  | some k => pySliceTo l k

/-- The range store: two lists of bit-string prefixes, one per address
family. -/
structure IP_List where
  ipv4list : List (List Char)
  ipv6list : List (List Char)
deriving DecidableEq, Repr

/-- `bisect.insort`: insert into a sorted list, after any equal
entries. -/
def insort (l : List (List Char)) (x : List Char) : List (List Char) :=
  match l with
  | [] => [x]
  | h :: t => if pyLt x h then x :: h :: t else h :: insort t x

/-- `bisect.bisect` (= `bisect_right`), modelled through its documented
partition property: on a sorted list the insertion point is the number
of entries `<=` the key, all of which precede it. -/
def bisect (l : List (List Char)) (b : List Char) : Nat :=
  l.countP (fun m => !pyLt b m)

/-- `list.sort()`, modelled as the sorted permutation of the list
(entries are plain strings, so stability is immaterial). -/
def pySortedList (l : List (List Char)) : List (List Char) := l.foldl insort []

/-- `IP_List._append`: encode, truncate to `depth`, push at the end of
the matching family's list.  An IPv4-mapped IPv6 entry goes to the
IPv4 list with the 96-bit marker stripped and `depth - 96`; if `depth`
is `None` there, `None - 96` raises `TypeError`. -/
def IP_List._append (L : IP_List) (ip : List Char) (depth : Option Int) :
    Except PyErr IP_List :=
  if ip.contains ':' then
    match to_bitfield_ipv6 ip with
    | .ok b =>
      if ipv4addrmask.isPrefixOf b then
        match depth with
        | none => .error .typeError
        | some d => .ok { L with ipv4list := L.ipv4list ++ [pySliceTo (b.drop 96) (d - 96)] }
      else .ok { L with ipv6list := L.ipv6list ++ [sliceOpt b depth] }
    | .error e => .error e
  else
    match to_bitfield_ipv4 ip with
    | .ok b => .ok { L with ipv4list := L.ipv4list ++ [sliceOpt b depth] }
    | .error e => .error e

/-- `IP_List.append`: like `_append` but inserting in sorted position
with `insort`.  The Python default depth is 256. -/
def IP_List.append (L : IP_List) (ip : List Char) (depth : Int) :
    Except PyErr IP_List :=
  if ip.contains ':' then
    match to_bitfield_ipv6 ip with
    | .ok b =>
      if ipv4addrmask.isPrefixOf b then
        .ok { L with ipv4list := insort L.ipv4list (pySliceTo (b.drop 96) (depth - 96)) }
      else .ok { L with ipv6list := insort L.ipv6list (pySliceTo b depth) }
    | .error e => .error e
  else
    match to_bitfield_ipv4 ip with
    | .ok b => .ok { L with ipv4list := insort L.ipv4list (pySliceTo b depth) }
    | .error e => .error e

/-- `IP_List.__init__(entrylist)`: `_append` every entry, then sort
both lists. -/
def initIPList (entries : List (List Char × Option Int)) : Except PyErr IP_List := do
  let L ← entries.foldlM (fun (L : IP_List) e => L._append e.1 e.2) (⟨[], []⟩ : IP_List)
  .ok ⟨pySortedList L.ipv4list, pySortedList L.ipv6list⟩

/-- The query-encoding step of `includes`: encode by family, stripping
the IPv4-mapped marker from an IPv6 result. -/
def queryBits (ip : List Char) : Except PyErr (List Char) :=
  if ip.contains ':' then
    match to_bitfield_ipv6 ip with
    | .ok b => .ok (if ipv4addrmask.isPrefixOf b then b.drop 96 else b)
    | .error e => .error e
  else to_bitfield_ipv4 ip

/-- The forward scan of `includes` over `l[start:]`: return true at the
first entry the query starts with, stop with false at the first entry
sorting after the query. -/
def scanLoop (b : List Char) : List (List Char) → Bool
  | [] => false
  | m :: rest =>
    if m.isPrefixOf b then true
    else if pyLt b m then false
    else scanLoop b rest

/-- The scan start position `bisect(l, b) - 1` as a Python index: when
the bisect point is 0 the slice `l[-1:]` wraps to the last element. -/
def startIdx (l : List (List Char)) (b : List Char) : Nat :=
  if bisect l b = 0 then l.length - 1 else bisect l b - 1

/-- `IP_List.includes`: empty store answers false before any encoding;
otherwise encode the query, pick the family list by bit length, and
scan forward from one position before the bisect point. -/
def IP_List.includes (L : IP_List) (ip : List Char) : Except PyErr Bool :=
  if L.ipv4list.isEmpty && L.ipv6list.isEmpty then .ok false
  else
    match queryBits ip with
    | .ok b =>
      let l := if 32 < b.length then L.ipv6list else L.ipv4list
      .ok (scanLoop b (l.drop (startIdx l b)))
    | .error e => .error e

/-- One line of `read_fieldlist`: strip and expand tabs, skip blanks
and `#`-comments, cut at the first space and first `#`, split a
trailing `/depth`, then `int(depth)` and `_append` inside a bare
`try`/`except` that drops the line (with a printed warning) on any
failure.  The list mutation in `_append` happens after all parsing, so
a failed line leaves the store untouched. -/
def processLine (L : IP_List) (raw : List Char) : IP_List :=
  let line := pyExpandtabs (pyStrip raw)
  if line = [] || line.head? = some '#' then L
  else
    let line2 := beforeFirst '#' (beforeFirst ' ' line)
    let pr :=
      match pySplitOn '/' line2 with
      | [a, b] => (a, some b)
      | _ => (line2, (none : Option (List Char)))
    let attempt : Except PyErr IP_List :=
      match pr.2 with
      | none => L._append pr.1 none
      | some ds =>
        match pyInt ds with
        | .ok v => L._append pr.1 (some v)
        | .error e => .error e
    match attempt with
    | .ok L' => L'
    | .error _ => L

/-- `IP_List.read_fieldlist`: process every line of the source, then
sort both family lists once. -/
def IP_List.read_fieldlist (L : IP_List) (lines : List (List Char)) : IP_List :=
  let L' := lines.foldl processLine L
  ⟨pySortedList L'.ipv4list, pySortedList L'.ipv6list⟩

/-- `is_ipv4`: colon-free classification. -/
def is_ipv4 (ip : List Char) : Bool := !ip.contains ':'

/-- `_valid_ipv4`: four dot-separated fields, each an `int()`-parsable
value accepted by `chr` (0 to 255); any failure is a `ValueError`. -/
def _valid_ipv4 (ip : List Char) : Except PyErr Unit :=
  let parts := pySplitOn '.' ip
  if parts.length ≠ 4 then .error .valueError
  else if parts.all (fun p =>
      match pyInt p with
      | .ok v => decide (0 ≤ v ∧ v ≤ 255)
      | .error _ => false) then .ok ()
  else .error .valueError

/-- Did an `Except` computation succeed? -/
def exceptOk {α : Type} : Except PyErr α → Bool
  | .ok _ => true
  | .error _ => false

/-- `is_valid_ip`: false on the empty string; `_valid_ipv4` for
colon-free text, `to_bitfield_ipv6` otherwise; every exception is
caught and yields false. -/
def is_valid_ip (ip : List Char) : Bool :=
  if ip = [] then false
  else if is_ipv4 ip then exceptOk (_valid_ipv4 ip)
  else exceptOk (to_bitfield_ipv6 ip)

/-!  Specification-side definitions (from the spec's words, for the
refinement claims). -/

/-- The naive linear containment check of the spec: does the query
start with some configured entry? -/
def naiveContains (l : List (List Char)) (b : List Char) : Bool :=
  l.any (fun p => p.isPrefixOf b)

/-- Ascending (weak) sortedness under the byte-string order. -/
def isSortedLe : List (List Char) → Bool
  | [] => true
  | [_] => true
  | a :: b :: t => !pyLt b a && isSortedLe (b :: t)

/-- Non-overlapping configuration: no stored entry is a proper prefix
of another stored entry. -/
def nonOverlap (l : List (List Char)) : Bool :=
  l.all (fun p => l.all (fun q => !p.isPrefixOf q || p == q))

/-- The canonical dotted-quad text of four octet values. -/
def quadText (o1 o2 o3 o4 : Nat) : List Char :=
  natToDec o1 ++ '.' :: natToDec o2 ++ '.' :: natToDec o3 ++ '.' :: natToDec o4

/-- A canonical decimal field: nonempty, all decimal digits, and no
leading zero (so it is read in base 10, not octal). -/
def canonDec (p : List Char) : Bool :=
  !p.isEmpty && p.all isDig && (p == ['0'] || !(p.head? == some '0'))

/-- Lowercase hex digit (the only hextet characters `hexbinmap`
accepts, apart from the padding key `'x'`). -/
def isLowerHex (c : Char) : Bool := isDig c || ('a' ≤ c && c ≤ 'f')

/-- A well-formed lowercase hextet: one to four lowercase hex
digits. -/
def partOk (s : List Char) : Bool := !s.isEmpty && s.length ≤ 4 && s.all isLowerHex

/-- Value of a hextet string. -/
def hexVal (s : List Char) : Nat := digitsVal 16 0 s

/-- Join hextet strings with colons. -/
def joinColon : List (List Char) → List Char
  | [] => []
  | [s] => s
  | s :: t => s ++ ':' :: joinColon t

/-- The 128-bit string of a list of hextet values. -/
def bits128 (hs : List Nat) : List Char := (hs.map (bitsBE 16)).flatten

/-- `t` is a lowercase textual rendering of the address whose hextet
values are `hs`: either all hextets written out and joined with
colons, or a `::` elision standing for a run of `z ≥ 1` zero hextets,
with the remaining hextets written out on either side.  Hextets may
carry any amount of leading-zero padding up to width 4. -/
def rendersTo (t : List Char) (hs : List Nat) : Prop :=
  (∃ ss : List (List Char), ss.all partOk = true ∧ ss.map hexVal = hs ∧ t = joinColon ss) ∨
  (∃ (pres sufs : List (List Char)) (z : Nat), 1 ≤ z ∧
     pres.all partOk = true ∧ sufs.all partOk = true ∧
     hs = pres.map hexVal ++ List.replicate z 0 ++ sufs.map hexVal ∧
     t = joinColon pres ++ ':' :: ':' :: joinColon sufs)

/-- The entry a single `read_fieldlist` line would contribute, if any:
run the line's processing against an empty store and observe which
family list received the parsed prefix.  `none` means the line is
blank, a comment, or malformed (skipped). -/
def lineEntry (raw : List Char) : Option (Bool × List Char) :=
  match processLine ⟨[], []⟩ raw with
  | ⟨[e], []⟩ => some (true, e)
  | ⟨[], [e]⟩ => some (false, e)
  | _ => none

/-- The IPv4 entries contributed by a list of lines. -/
def linesV4 (lines : List (List Char)) : List (List Char) :=
  lines.filterMap (fun l =>
    match lineEntry l with
    | some (true, e) => some e
    | _ => none)

/-- The IPv6 entries contributed by a list of lines. -/
def linesV6 (lines : List (List Char)) : List (List Char) :=
  lines.filterMap (fun l =>
    match lineEntry l with
    | some (false, e) => some e
    | _ => none)


/-!  Order theory of the byte-string comparison. -/

theorem charLt_iff {a b : Char} : charLt a b = true ↔ a.val.toNat < b.val.toNat := by
  simp [charLt, UInt32.lt_def, BitVec.lt_def]
  exact Iff.rfl

theorem charLt_false_iff {a b : Char} : charLt a b = false ↔ ¬ a.val.toNat < b.val.toNat := by
  rw [← charLt_iff]
  simp

theorem charEq_iff {a b : Char} : a = b ↔ a.val.toNat = b.val.toNat :=
  ⟨fun h => by rw [h], fun h => Char.ext (UInt32.toNat.inj h)⟩

theorem charLt_self (a : Char) : charLt a a = false := charLt_false_iff.mpr (by omega)

theorem charLt_antisymm {a b : Char} (h1 : charLt a b = false) (h2 : charLt b a = false) :
    a = b := by
  have n1 := charLt_false_iff.mp h1
  have n2 := charLt_false_iff.mp h2
  exact charEq_iff.mpr (by omega)

theorem pyLt_irrefl : ∀ l : List Char, pyLt l l = false
  | [] => rfl
  | c :: t => by simp [pyLt, charLt_self, pyLt_irrefl t]

theorem pyLt_trans_neg :
    ∀ b h x : List Char, pyLt b h = true → pyLt x h = false → pyLt b x = true
  | [], [], _, hb, _ => by simp [pyLt] at hb
  | [], _ :: _, [], _, hx => by simp [pyLt] at hx
  | [], _ :: _, _ :: _, _, _ => by simp [pyLt]
  | _ :: _, [], _, hb, _ => by simp [pyLt] at hb
  | _ :: _, _ :: _, [], _, hx => by simp [pyLt] at hx
  | c :: bs, d :: hs, e :: xs, hb, hx => by
    simp only [pyLt, Bool.or_eq_true, Bool.and_eq_true, beq_iff_eq] at hb ⊢
    have hed : charLt e d = false ∧ ((e == d && pyLt xs hs) = false) := by
      constructor
      · cases h' : charLt e d
        · rfl
        · exact absurd hx (by simp [pyLt, h'])
      · cases h' : (e == d && pyLt xs hs)
        · rfl
        · exact absurd hx (by simp [pyLt, h'])
    have hedN := charLt_false_iff.mp hed.1
    rcases hb with hcd | ⟨rfl, htail⟩
    · have hcdN := charLt_iff.mp hcd
      by_cases hede : e = d
      · subst hede
        exact Or.inl hcd
      · have hedne : d.val.toNat ≠ e.val.toNat := fun h => hede (charEq_iff.mpr (by omega))
        exact Or.inl (charLt_iff.mpr (by omega))
    · by_cases hede : e = c
      · subst hede
        have : pyLt xs hs = false := by
          rcases Bool.and_eq_false_iff.mp hed.2 with h | h
          · simp at h
          · exact h
        exact Or.inr ⟨rfl, pyLt_trans_neg bs hs xs htail this⟩
      · have hedne : e.val.toNat ≠ c.val.toNat := fun h => hede (charEq_iff.mpr h)
        exact Or.inl (charLt_iff.mpr (by omega))

theorem pyLe_trans {x y z : List Char} (h1 : pyLt y x = false) (h2 : pyLt z y = false) :
    pyLt z x = false := by
  cases h : pyLt z x
  · rfl
  · exact absurd (pyLt_trans_neg z x y h h1) (by simp [h2])

theorem isPrefixOf_not_pyLt : ∀ p b : List Char, p.isPrefixOf b = true → pyLt b p = false
  | [], [], _ => rfl
  | [], _ :: _, _ => rfl
  | _ :: _, [], hp => by simp [List.isPrefixOf] at hp
  | c :: ps, c' :: bs, hp => by
    simp only [List.isPrefixOf, Bool.and_eq_true, beq_iff_eq] at hp
    rcases hp with ⟨rfl, htail⟩
    simp [pyLt, charLt_self, isPrefixOf_not_pyLt ps bs htail]

theorem between_isPrefixOf :
    ∀ p m b : List Char, p.isPrefixOf b = true → pyLt m p = false → pyLt b m = false →
      p.isPrefixOf m = true
  | [], m, b, _, _, _ => by simp [List.isPrefixOf]
  | _ :: _, _, [], hp, _, _ => by simp [List.isPrefixOf] at hp
  | c :: ps, [], c' :: bs, _, hm, _ => by simp [pyLt] at hm
  | c :: ps, e :: ms, c' :: bs, hp, hm, hb => by
    simp only [List.isPrefixOf, Bool.and_eq_true, beq_iff_eq] at hp
    rcases hp with ⟨rfl, htail⟩
    have hm1 : charLt e c = false := by
      cases h' : charLt e c
      · rfl
      · exact absurd hm (by simp [pyLt, h'])
    have hm2 : (e == c && pyLt ms ps) = false := by
      cases h' : (e == c && pyLt ms ps)
      · rfl
      · exact absurd hm (by simp [pyLt, h'])
    have hb1 : charLt c e = false := by
      cases h' : charLt c e
      · rfl
      · exact absurd hb (by simp [pyLt, h'])
    have hb2 : (c == e && pyLt bs ms) = false := by
      cases h' : (c == e && pyLt bs ms)
      · rfl
      · exact absurd hb (by simp [pyLt, h'])
    have hec : e = c := charLt_antisymm hm1 hb1
    subst hec
    have h1 : pyLt ms ps = false := by
      rcases Bool.and_eq_false_iff.mp hm2 with h | h
      · simp at h
      · exact h
    have h2 : pyLt bs ms = false := by
      rcases Bool.and_eq_false_iff.mp hb2 with h | h
      · simp at h
      · exact h
    simp [List.isPrefixOf, between_isPrefixOf ps ms bs htail h1 h2]

/-!  Sortedness, bisect, and the forward scan. -/

theorem isSortedLe_cons {a : List Char} {l : List (List Char)} (h : isSortedLe (a :: l) = true) :
    isSortedLe l = true ∧ ∀ x ∈ l, pyLt x a = false := by
  induction l generalizing a with
  | nil => exact ⟨rfl, by simp⟩
  | cons b t ih =>
    have hab : pyLt b a = false := by
      cases h' : pyLt b a
      · rfl
      · exact absurd h (by simp [isSortedLe, h'])
    have htl : isSortedLe (b :: t) = true := by
      cases h' : isSortedLe (b :: t)
      · exact absurd h (by simp [isSortedLe, h'])
      · rfl
    refine ⟨htl, ?_⟩
    intro x hx
    rcases List.mem_cons.mp hx with rfl | hx
    · exact hab
    · exact pyLe_trans hab ((ih htl).2 x hx)

theorem sorted_bisect_partition (b : List Char) :
    ∀ l : List (List Char), isSortedLe l = true →
      ((l.take (bisect l b)).all (fun m => !pyLt b m)) = true ∧
      ((l.drop (bisect l b)).all (fun m => pyLt b m)) = true := by
  intro l
  induction l with
  | nil => intro _; exact ⟨rfl, rfl⟩
  | cons h t ih =>
    intro hs
    rcases isSortedLe_cons hs with ⟨hst, hall⟩
    rcases ih hst with ⟨ih1, ih2⟩
    by_cases hPh : pyLt b h = false
    · have hc : bisect (h :: t) b = bisect t b + 1 := by
        simp [bisect, List.countP_cons, hPh]
      rw [hc]
      constructor
      · simpa [List.all_cons, hPh] using ih1
      · simpa using ih2
    · have hPh' : pyLt b h = true := by
        cases h' : pyLt b h
        · exact absurd h' hPh
        · rfl
      have hz : bisect t b = 0 := by
        rw [bisect, List.countP_eq_zero]
        intro x hx
        simp [pyLt_trans_neg b h x hPh' (hall x hx)]
      have hc : bisect (h :: t) b = 0 := by
        rw [bisect, List.countP_cons]
        have h1 : (!pyLt b h) = false := by simp [hPh']
        rw [h1]
        simpa [bisect] using hz
      rw [hc]
      refine ⟨rfl, ?_⟩
      rw [List.drop_zero, List.all_cons]
      simp only [hPh', Bool.true_and]
      rw [List.all_eq_true]
      intro x hx
      exact pyLt_trans_neg b h x hPh' (hall x hx)

theorem bisect_le_length (l : List (List Char)) (b : List Char) : bisect l b ≤ l.length :=
  List.countP_le_length _

theorem scanLoop_true_mem {b : List Char} :
    ∀ xs : List (List Char), scanLoop b xs = true → ∃ m ∈ xs, m.isPrefixOf b = true
  | [], h => by simp [scanLoop] at h
  | m :: rest, h => by
    by_cases hp : m.isPrefixOf b = true
    · exact ⟨m, List.mem_cons_self m rest, hp⟩
    · have hp' : m.isPrefixOf b = false := by
        cases h' : m.isPrefixOf b
        · rfl
        · exact absurd h' hp
      by_cases hlt : pyLt b m = true
      · rw [scanLoop, if_neg (by simp [hp']), if_pos hlt] at h
        exact absurd h (by simp)
      · have hlt' : pyLt b m = false := by
          cases h' : pyLt b m
          · rfl
          · exact absurd h' hlt
        rw [scanLoop, if_neg (by simp [hp']), if_neg (by simp [hlt'])] at h
        rcases scanLoop_true_mem rest h with ⟨x, hx, hxp⟩
        exact ⟨x, List.mem_cons_of_mem m hx, hxp⟩

theorem scanLoop_false_of_no_match {b : List Char} :
    ∀ xs : List (List Char), (∀ m ∈ xs, m.isPrefixOf b = false) → scanLoop b xs = false
  | [], _ => rfl
  | m :: rest, h => by
    have hm := h m (List.mem_cons_self m rest)
    rw [scanLoop, if_neg (by simp [hm])]
    by_cases hlt : pyLt b m = true
    · rw [if_pos hlt]
    · have hlt' : pyLt b m = false := by
        cases h' : pyLt b m
        · rfl
        · exact absurd h' hlt
      rw [if_neg (by simp [hlt'])]
      exact scanLoop_false_of_no_match rest (fun x hx => h x (List.mem_cons_of_mem m hx))

theorem isSortedLe_pairwise :
    ∀ l : List (List Char), isSortedLe l = true →
      List.Pairwise (fun a b => pyLt b a = false) l
  | [], _ => List.Pairwise.nil
  | a :: t, h => by
    rcases isSortedLe_cons h with ⟨ht, hall⟩
    exact List.Pairwise.cons hall (isSortedLe_pairwise t ht)

theorem sorted_get_le {l : List (List Char)} (hs : isSortedLe l = true) {j k : Nat}
    (hjk : j ≤ k) (hj : j < l.length) (hk : k < l.length) :
    pyLt l[k] l[j] = false := by
  rcases Nat.eq_or_lt_of_le hjk with rfl | hlt
  · exact pyLt_irrefl _
  · exact List.pairwise_iff_getElem.mp (isSortedLe_pairwise l hs) j k hj hk hlt

/-- The heart of the refinement claim: on a sorted, non-overlapping
list, the binary-search-plus-forward-scan agrees with the naive linear
scan. -/
theorem scan_eq_naive (l : List (List Char)) (b : List Char)
    (hs : isSortedLe l = true) (hn : nonOverlap l = true) :
    scanLoop b (l.drop (startIdx l b)) = naiveContains l b := by
  cases hnv : naiveContains l b
  · refine scanLoop_false_of_no_match _ (fun m hm => ?_)
    cases h' : m.isPrefixOf b
    · rfl
    · have : naiveContains l b = true := by
        rw [naiveContains, List.any_eq_true]
        exact ⟨m, List.mem_of_mem_drop hm, h'⟩
      rw [this] at hnv
      exact absurd hnv (by simp)
  · rw [naiveContains, List.any_eq_true] at hnv
    obtain ⟨p, hpmem, hp⟩ := hnv
    have hple : pyLt b p = false := isPrefixOf_not_pyLt p b hp
    have hpos : 0 < bisect l b := by
      rw [bisect]
      exact List.countP_pos_iff.mpr ⟨p, hpmem, by simp [hple]⟩
    have hil : bisect l b ≤ l.length := bisect_le_length l b
    have hstart : startIdx l b = bisect l b - 1 := by
      rw [startIdx, if_neg (by omega)]
    have hi1 : bisect l b - 1 < l.length := by omega
    obtain ⟨tk, dr⟩ := sorted_bisect_partition b l hs
    have hdrop : l.drop (bisect l b - 1) = l[bisect l b - 1] :: l.drop (bisect l b) := by
      rw [List.drop_eq_getElem_cons hi1]
      have harith : bisect l b - 1 + 1 = bisect l b := by omega
      rw [harith]
    have hm_le : pyLt b l[bisect l b - 1] = false := by
      have h1 : bisect l b - 1 < (l.take (bisect l b)).length := by
        rw [List.length_take]
        omega
      have h2 := List.all_eq_true.mp tk _ (List.getElem_mem h1)
      rw [List.getElem_take] at h2
      simpa using h2
    obtain ⟨j, hj, hgj⟩ := List.mem_iff_getElem.mp hpmem
    have hji : j < bisect l b := by
      by_contra hge
      push_neg at hge
      have h1 : j - bisect l b < (l.drop (bisect l b)).length := by
        rw [List.length_drop]
        omega
      have h2 := List.all_eq_true.mp dr _ (List.getElem_mem h1)
      rw [List.getElem_drop] at h2
      have hidx : bisect l b + (j - bisect l b) = j := by omega
      simp only [hidx] at h2
      rw [hgj, hple] at h2
      exact absurd h2 (by simp)
    have hmono : pyLt l[bisect l b - 1] p = false := by
      have := sorted_get_le hs (j := j) (k := bisect l b - 1) (by omega) hj hi1
      rwa [hgj] at this
    have hpm : p.isPrefixOf l[bisect l b - 1] = true :=
      between_isPrefixOf p _ b hp hmono hm_le
    have hnov : p = l[bisect l b - 1] := by
      have h1 := List.all_eq_true.mp hn p hpmem
      have h2 := List.all_eq_true.mp h1 _ (List.getElem_mem hi1)
      rw [hpm] at h2
      simpa using h2
    rw [hstart, hdrop, scanLoop, ← hnov, if_pos hp]

/-- C1: for an `IP_List` whose stored prefix lists are sorted and
pairwise non-overlapping (no stored prefix is a prefix of another),
and any query text whose encoding succeeds, `includes` returns exactly
the verdict of the naive linear scan "does the query's bit string
start with some stored prefix" over the selected family list. -/
theorem C1_includes_refines_naive (L : IP_List) (ip b : List Char)
    (hs4 : isSortedLe L.ipv4list = true) (hs6 : isSortedLe L.ipv6list = true)
    (hn4 : nonOverlap L.ipv4list = true) (hn6 : nonOverlap L.ipv6list = true)
    (hq : queryBits ip = .ok b) :
    L.includes ip = .ok (naiveContains (if 32 < b.length then L.ipv6list else L.ipv4list) b) := by
  by_cases hemp : (L.ipv4list.isEmpty && L.ipv6list.isEmpty) = true
  · obtain ⟨h4, h6⟩ : L.ipv4list.isEmpty = true ∧ L.ipv6list.isEmpty = true := by
      simpa using hemp
    have h4' : L.ipv4list = [] := List.isEmpty_iff.mp h4
    have h6' : L.ipv6list = [] := List.isEmpty_iff.mp h6
    have hsel : (if 32 < b.length then L.ipv6list else L.ipv4list) = [] := by
      split <;> assumption
    rw [IP_List.includes, if_pos hemp, hsel]
    rfl
  · rw [IP_List.includes, if_neg hemp]
    simp only [hq]
    by_cases hlen : 32 < b.length
    · simp only [if_pos hlen]
      exact congrArg Except.ok (scan_eq_naive L.ipv6list b hs6 hn6)
    · simp only [if_neg hlen]
      exact congrArg Except.ok (scan_eq_naive L.ipv4list b hs4 hn4)

theorem C1_witness :
    isSortedLe (IP_List.mk ["00001010".data] []).ipv4list = true ∧
    nonOverlap (IP_List.mk ["00001010".data] []).ipv4list = true ∧
    queryBits "10.1.2.3".data = .ok (charbinmap 10 ++ charbinmap 1 ++ charbinmap 2 ++ charbinmap 3 ++ []) ∧
    (IP_List.mk ["00001010".data] []).includes "10.1.2.3".data =
      .ok (naiveContains (if 32 < (charbinmap 10 ++ charbinmap 1 ++ charbinmap 2 ++ charbinmap 3 ++ ([] : List Char)).length
        then (IP_List.mk ["00001010".data] []).ipv6list
        else (IP_List.mk ["00001010".data] []).ipv4list)
        (charbinmap 10 ++ charbinmap 1 ++ charbinmap 2 ++ charbinmap 3 ++ [])) :=
  ⟨by decide, by decide, by decide,
    C1_includes_refines_naive (IP_List.mk ["00001010".data] []) "10.1.2.3".data
      (charbinmap 10 ++ charbinmap 1 ++ charbinmap 2 ++ charbinmap 3 ++ [])
      (by decide) (by decide) (by decide) (by decide) (by decide)⟩

/-- C10: a containment query against an `IP_List` whose two family
lists are both empty returns `false` for every query text — even text
no encoder accepts — and raises nothing: the emptiness test precedes
any encoding of the query. -/
theorem C10_empty_includes_false (ip : List Char) :
    (IP_List.mk [] []).includes ip = .ok false := rfl

/-- C2: an overlapping configuration on which the scan misses.  Built
from 64.0.0.0/2 (stored prefix `01`), 64.0.0.0/4 (stored prefix
`0100`, sharing the 2-bit pattern) and 112.0.0.0/4 (stored prefix
`0111`, also sorting after the broad entry), the query 80.0.0.0 —
whose bits start with the stored depth-2 prefix `01`, so it lies
inside that range — is answered `false` by `includes`. -/
theorem C2_overlapping_scan_miss :
    initIPList [("64.0.0.0".data, some 2), ("64.0.0.0".data, some 4),
        ("112.0.0.0".data, some 4)] =
      .ok ⟨["01".data, "0100".data, "0111".data], []⟩ ∧
    queryBits "80.0.0.0".data = .ok ("01010000".data ++ List.replicate 24 '0') ∧
    ("01".data).isPrefixOf ("01010000".data ++ List.replicate 24 '0') = true ∧
    (IP_List.mk ["01".data, "0100".data, "0111".data] []).includes "80.0.0.0".data =
      .ok false := by
  refine ⟨by decide, by decide, by decide, by decide⟩

/-- C3 counterexample: the claim says `append` raises `FormatError`
whenever the requested depth of an IPv4-mapped IPv6 entry is below 96.
At depth 95 no error is raised: Python evaluates `b[96:][:95-96]`,
i.e. a slice with negative right bound, and stores the 32-bit suffix
with its last bit dropped. -/
theorem C3_counterexample :
    (IP_List.mk [] []).append "::ffff:0:0".data 95 =
      .ok ⟨[List.replicate 31 '0'], []⟩ := by decide

/-- C3 (amended): for an IPv6 text carrying the IPv4-mapped marker,
`append(t, depth)` always succeeds, inserting
`b[96:][:depth-96]` into the IPv4 list: for `depth ≥ 96` that is the
32-bit suffix truncated to `depth - 96` bits, and for `depth < 96` the
negative Python slice bound keeps all but the last `96 - depth` bits
of the suffix (empty once `depth ≤ 64`) — no error is raised. -/
theorem C3_mapped_append_stores_suffix (L : IP_List) (t : List Char) (d : Int)
    (b : List Char) (hc : t.contains ':' = true) (hb : to_bitfield_ipv6 t = .ok b)
    (hm : ipv4addrmask.isPrefixOf b = true) :
    L.append t d =
      .ok { L with ipv4list := insort L.ipv4list (pySliceTo (b.drop 96) (d - 96)) } ∧
    (96 ≤ d → pySliceTo (b.drop 96) (d - 96) = (b.drop 96).take (d - 96).toNat) ∧
    (d < 96 → pySliceTo (b.drop 96) (d - 96) =
      (b.drop 96).take ((b.drop 96).length - (96 - d).toNat)) := by
  refine ⟨?_, ?_, ?_⟩
  · rw [IP_List.append, if_pos hc, hb]
    simp only [hm, if_pos]
  · intro h
    rw [pySliceTo, if_pos (by omega)]
  · intro h
    rw [pySliceTo, if_neg (by omega)]
    have : (-(d - 96)).toNat = (96 - d).toNat := by omega
    rw [this]

theorem C3_witness :
    ("::ffff:1.2.3.4".data).contains ':' = true ∧
    (IP_List.mk [] []).append "::ffff:1.2.3.4".data 120 =
      .ok ⟨[(charbinmap 1 ++ charbinmap 2 ++ charbinmap 3 ++ charbinmap 4 ++ []).take 24], []⟩ := by
  have h := C3_mapped_append_stores_suffix (IP_List.mk [] []) "::ffff:1.2.3.4".data 120
    (List.replicate 80 '0' ++ List.replicate 16 '1' ++
      (charbinmap 1 ++ charbinmap 2 ++ charbinmap 3 ++ charbinmap 4 ++ []))
    (by decide) (by decide) (by decide)
  refine ⟨by decide, ?_⟩
  rw [h.1]
  decide

/-- C5 counterexample: `is_valid_ip` does not agree with the encoder
selected by classification.  The colon-free text `127.1` is accepted
by `to_bitfield_ipv4` (`socket.inet_aton` fills missing octets), yet
`is_valid_ip` reports `false`, because the IPv4 branch validates with
`_valid_ipv4` (exactly four fields), not with the encoder. -/
theorem C5_counterexample :
    is_valid_ip "127.1".data = false ∧
    to_bitfield_ipv4 "127.1".data =
      .ok (charbinmap 127 ++ charbinmap 0 ++ charbinmap 0 ++ charbinmap 1 ++ []) := by
  refine ⟨by decide, by decide⟩

/-- C5 (amended): `is_valid_ip t` is true iff `t` is nonempty and the
VALIDATOR selected by classification succeeds: `_valid_ipv4` (four
dot-separated `int()`-parsable fields in 0-255 — not the IPv4 encoder)
when `t` has no colon, and the IPv6 encoder `to_bitfield_ipv6` when it
has one. -/
theorem C5_is_valid_iff (ip : List Char) :
    is_valid_ip ip = true ↔
      (ip ≠ [] ∧ ((ip.contains ':' = false ∧ _valid_ipv4 ip = .ok ()) ∨
        (ip.contains ':' = true ∧ ∃ b, to_bitfield_ipv6 ip = .ok b))) := by
  rw [is_valid_ip]
  by_cases hemp : ip = []
  · simp [hemp]
  · rw [if_neg hemp]
    rw [is_ipv4]
    by_cases hc : ip.contains ':'
    · simp only [hc, Bool.not_true, Bool.false_eq_true, if_false]
      cases h6 : to_bitfield_ipv6 ip with
      | ok b => simp [exceptOk, h6, hemp]
      | error e => simp [exceptOk, h6, hemp]
    · simp only [Bool.not_eq_true'] at hc
      simp only [hc, Bool.not_false, if_true]
      cases h4 : _valid_ipv4 ip with
      | ok u =>
        cases u
        simp [exceptOk, h4, hemp, hc]
      | error e => simp [exceptOk, h4, hemp, hc]

theorem C5_witness : is_valid_ip "::1".data = true :=
  (C5_is_valid_iff "::1".data).mpr
    ⟨by decide, Or.inr ⟨by decide, ⟨List.replicate 127 '0' ++ ['1'], by decide⟩⟩⟩

/-!  Splitting and `inet_aton` parsing. -/

theorem pySplitOn_ne_nil (sep : Char) : ∀ l : List Char, pySplitOn sep l ≠ []
  | [] => by simp [pySplitOn]
  | c :: t => by
    rw [pySplitOn]
    by_cases h : c = sep
    · simp [h]
    · rw [if_neg h]
      cases hp : pySplitOn sep t <;> simp

theorem pySplitOn_cons_sep (sep : Char) (t : List Char) :
    pySplitOn sep (sep :: t) = [] :: pySplitOn sep t := by
  rw [pySplitOn, if_pos rfl]

theorem pySplitOn_append (sep : Char) :
    ∀ x y : List Char, pySplitOn sep (x ++ sep :: y) = pySplitOn sep x ++ pySplitOn sep y
  | [], y => by
    rw [List.nil_append, pySplitOn_cons_sep]
    rfl
  | c :: t, y => by
    by_cases h : c = sep
    · subst h
      rw [List.cons_append, pySplitOn_cons_sep, pySplitOn_cons_sep, pySplitOn_append c t y,
        List.cons_append]
    · obtain ⟨p, ps, hp⟩ : ∃ p ps, pySplitOn sep t = p :: ps := by
        cases hpt : pySplitOn sep t with
        | nil => exact absurd hpt (pySplitOn_ne_nil sep t)
        | cons p ps => exact ⟨p, ps, rfl⟩
      rw [List.cons_append]
      simp only [pySplitOn, if_neg h]
      rw [pySplitOn_append sep t y, hp]
      simp [List.cons_append]

theorem pySplitOn_no_sep (sep : Char) : ∀ l : List Char, (∀ c ∈ l, c ≠ sep) →
    pySplitOn sep l = [l]
  | [], _ => rfl
  | c :: t, h => by
    have hc : c ≠ sep := h c (List.mem_cons_self c t)
    simp only [pySplitOn, if_neg hc]
    rw [pySplitOn_no_sep sep t (fun x hx => h x (List.mem_cons_of_mem c hx))]

theorem length_bitsBE : ∀ w v, (bitsBE w v).length = w
  | 0, _ => rfl
  | w + 1, v => by rw [bitsBE]; simp [length_bitsBE w v]

theorem length_charbinmap (o : Nat) : (charbinmap o).length = 8 := length_bitsBE 8 o

theorem natToDec_canonDec : ∀ o : Nat, o < 256 → canonDec (natToDec o) = true := by decide

theorem natToDec_ne_nil : ∀ o : Nat, o < 256 → natToDec o ≠ [] := by decide

theorem natToDec_no_dot : ∀ o : Nat, o < 256 → ∀ c ∈ natToDec o, c ≠ '.' := by decide

theorem natToDec_no_colon : ∀ o : Nat, o < 256 → ∀ c ∈ natToDec o, c ≠ ':' := by decide

theorem inetPart_natToDec : ∀ o : Nat, o < 256 → inetPart (natToDec o) = some o := by decide

theorem binVal_charbinmap : ∀ o : Nat, o < 256 → binVal (charbinmap o) = o := by decide

theorem pySplitOn_quadText (o1 o2 o3 o4 : Nat) (h1 : o1 < 256) (h2 : o2 < 256)
    (h3 : o3 < 256) (h4 : o4 < 256) :
    pySplitOn '.' (quadText o1 o2 o3 o4) =
      [natToDec o1, natToDec o2, natToDec o3, natToDec o4] := by
  simp only [quadText, List.cons_append, List.append_assoc]
  rw [pySplitOn_append '.' (natToDec o1), pySplitOn_append '.' (natToDec o2),
    pySplitOn_append '.' (natToDec o3), pySplitOn_no_sep '.' (natToDec o1) (natToDec_no_dot o1 h1),
    pySplitOn_no_sep '.' (natToDec o2) (natToDec_no_dot o2 h2),
    pySplitOn_no_sep '.' (natToDec o3) (natToDec_no_dot o3 h3),
    pySplitOn_no_sep '.' (natToDec o4) (natToDec_no_dot o4 h4)]
  rfl

theorem inet_aton_quadText (o1 o2 o3 o4 : Nat) (h1 : o1 < 256) (h2 : o2 < 256)
    (h3 : o3 < 256) (h4 : o4 < 256) :
    inet_aton (quadText o1 o2 o3 o4) =
      some (o1 * 2 ^ 24 + o2 * 2 ^ 16 + o3 * 2 ^ 8 + o4) := by
  simp only [inet_aton, pySplitOn_quadText o1 o2 o3 o4 h1 h2 h3 h4]
  simp only [optionMapM, inetPart_natToDec o1 h1, inetPart_natToDec o2 h2,
    inetPart_natToDec o3 h3, inetPart_natToDec o4 h4]
  rw [if_pos (by omega)]

theorem ipv4bytes_combine (o1 o2 o3 o4 : Nat) (h1 : o1 < 256) (h2 : o2 < 256)
    (h3 : o3 < 256) (h4 : o4 < 256) :
    ipv4bytes (o1 * 2 ^ 24 + o2 * 2 ^ 16 + o3 * 2 ^ 8 + o4) = [o1, o2, o3, o4] := by
  rw [ipv4bytes]
  have e1 : (o1 * 2 ^ 24 + o2 * 2 ^ 16 + o3 * 2 ^ 8 + o4) / 2 ^ 24 % 256 = o1 := by omega
  have e2 : (o1 * 2 ^ 24 + o2 * 2 ^ 16 + o3 * 2 ^ 8 + o4) / 2 ^ 16 % 256 = o2 := by omega
  have e3 : (o1 * 2 ^ 24 + o2 * 2 ^ 16 + o3 * 2 ^ 8 + o4) / 2 ^ 8 % 256 = o3 := by omega
  have e4 : (o1 * 2 ^ 24 + o2 * 2 ^ 16 + o3 * 2 ^ 8 + o4) % 256 = o4 := by omega
  rw [e1, e2, e3, e4]

theorem to_bitfield_ipv4_quadText (o1 o2 o3 o4 : Nat) (h1 : o1 < 256) (h2 : o2 < 256)
    (h3 : o3 < 256) (h4 : o4 < 256) :
    to_bitfield_ipv4 (quadText o1 o2 o3 o4) =
      .ok (charbinmap o1 ++ (charbinmap o2 ++ (charbinmap o3 ++ (charbinmap o4 ++ [])))) := by
  rw [to_bitfield_ipv4, inet_aton_quadText o1 o2 o3 o4 h1 h2 h3 h4]
  show Except.ok ((ipv4bytes (o1 * 2 ^ 24 + o2 * 2 ^ 16 + o3 * 2 ^ 8 + o4)).map
    charbinmap).flatten = _
  rw [ipv4bytes_combine o1 o2 o3 o4 h1 h2 h3 h4]
  rfl

theorem optionMapM_length {α β : Type} {f : α → Option β} :
    ∀ l : List α, ∀ vals : List β, optionMapM f l = some vals → vals.length = l.length
  | [], vals, h => by
    rw [optionMapM] at h
    cases h
    rfl
  | a :: t, vals, h => by
    rw [optionMapM] at h
    cases hfa : f a with
    | none => rw [hfa] at h; exact absurd h (by simp)
    | some b =>
      rw [hfa] at h
      cases hft : optionMapM f t with
      | none => rw [hft] at h; exact absurd h (by simp)
      | some bs =>
        rw [hft] at h
        cases h
        simp [optionMapM_length t bs hft]

theorem optionMapM_none {α β : Type} {f : α → Option β} :
    ∀ l : List α, ∀ x : α, x ∈ l → f x = none → optionMapM f l = none
  | [], x, hx, _ => absurd hx (List.not_mem_nil x)
  | a :: t, x, hx, hfx => by
    rw [optionMapM]
    rcases List.mem_cons.mp hx with rfl | hx'
    · rw [hfx]
    · rw [optionMapM_none t x hx' hfx]
      cases f a <;> rfl

theorem inetPart_canonDec (p : List Char) (h : canonDec p = true) :
    inetPart p = capped (digitsVal 10 0 p) := by
  cases p with
  | nil => exact absurd h (by decide)
  | cons c rest =>
    rw [canonDec] at h
    simp only [Bool.and_eq_true, Bool.or_eq_true] at h
    by_cases hc0 : c = '0'
    · subst hc0
      have hrest : rest = [] := by
        rcases h.2 with h' | h'
        · simpa using h'
        · exact absurd h' (by simp)
      subst hrest
      rfl
    · simp only [inetPart]
      rw [if_neg hc0, if_pos]
      constructor
      · have := h.1.2
        simp only [List.all_cons, Bool.and_eq_true] at this
        exact this.1
      · exact h.1.2

theorem inet_aton_too_many (s : List Char) (h : 4 < (pySplitOn '.' s).length) :
    inet_aton s = none := by
  rw [inet_aton]
  cases hm : optionMapM inetPart (pySplitOn '.' s) with
  | none => rfl
  | some vals =>
    have hlen : 4 < vals.length := by
      rw [optionMapM_length (pySplitOn '.' s) vals hm]
      exact h
    rcases vals with _ | ⟨a, _ | ⟨b, _ | ⟨c, _ | ⟨d, _ | ⟨e, rest⟩⟩⟩⟩⟩ <;>
      simp at hlen ⊢

theorem inet_aton_empty_part (s : List Char) (h : [] ∈ pySplitOn '.' s) :
    inet_aton s = none := by
  rw [inet_aton, optionMapM_none (pySplitOn '.' s) [] h rfl]

theorem inet_aton_canon_overflow (s p1 p2 p3 p4 : List Char)
    (hsplit : pySplitOn '.' s = [p1, p2, p3, p4])
    (hc1 : canonDec p1 = true) (hc2 : canonDec p2 = true)
    (hc3 : canonDec p3 = true) (hc4 : canonDec p4 = true)
    (hbig : 255 < digitsVal 10 0 p1 ∨ 255 < digitsVal 10 0 p2 ∨
      255 < digitsVal 10 0 p3 ∨ 255 < digitsVal 10 0 p4) :
    inet_aton s = none := by
  have hnone : ∀ p : List Char, canonDec p = true → ¬ digitsVal 10 0 p < 2 ^ 32 →
      inetPart p = none := by
    intro p hp hv
    rw [inetPart_canonDec p hp, capped, if_neg hv]
  rw [inet_aton, hsplit]
  by_cases hv1 : digitsVal 10 0 p1 < 2 ^ 32
  case neg =>
    rw [optionMapM_none _ p1 (by simp) (hnone p1 hc1 hv1)]
  case pos =>
  by_cases hv2 : digitsVal 10 0 p2 < 2 ^ 32
  case neg =>
    rw [optionMapM_none _ p2 (by simp) (hnone p2 hc2 hv2)]
  case pos =>
  by_cases hv3 : digitsVal 10 0 p3 < 2 ^ 32
  case neg =>
    rw [optionMapM_none _ p3 (by simp) (hnone p3 hc3 hv3)]
  case pos =>
  by_cases hv4 : digitsVal 10 0 p4 < 2 ^ 32
  case neg =>
    rw [optionMapM_none _ p4 (by simp) (hnone p4 hc4 hv4)]
  case pos =>
  have hmm : optionMapM inetPart [p1, p2, p3, p4] =
      some [digitsVal 10 0 p1, digitsVal 10 0 p2, digitsVal 10 0 p3, digitsVal 10 0 p4] := by
    simp only [optionMapM, inetPart_canonDec p1 hc1, inetPart_canonDec p2 hc2,
      inetPart_canonDec p3 hc3, inetPart_canonDec p4 hc4, capped,
      if_pos hv1, if_pos hv2, if_pos hv3, if_pos hv4]
  rw [hmm]
  show (if _ ∧ _ ∧ _ ∧ _ then _ else none) = none
  rw [if_neg (by omega)]

/-- C4 counterexample: the claim has `to_bitfield_ipv4` raising
`FormatError` on every text that is not four dot-separated decimal
octets.  The two-segment text `127.1` is accepted: `socket.inet_aton`
reads it as 127.0.0.1 (the last component fills the remaining three
bytes), so the encoder returns a 32-bit string instead of raising. -/
theorem C4_counterexample :
    to_bitfield_ipv4 "127.1".data =
      .ok (charbinmap 127 ++ charbinmap 0 ++ charbinmap 0 ++ charbinmap 1 ++ []) ∧
    (pySplitOn '.' "127.1".data).length ≠ 4 := by
  refine ⟨by decide, by decide⟩

/-- C4 (amended): `to_bitfield_ipv4` accepts exactly what
`socket.inet_aton` accepts, not only strict dotted quads.  What
remains true: (1) every canonical four-octet decimal text (0-255,
no leading zeros) is accepted and encodes to the big-endian
concatenation of the octets' 8-bit renderings; (2) more than four
dot-separated segments raise `FormatError`; (3) an empty segment
raises `FormatError`; (4) a four-segment all-canonical-decimal text
with a segment value above 255 raises `FormatError`.  Dropped from the
original claim: fewer than four segments (e.g. `127.1`), octal (`010`)
and hex (`0x1f`) segments are accepted by the code. -/
theorem C4_encode_ipv4_amended :
    (∀ o1 o2 o3 o4 : Nat, o1 < 256 → o2 < 256 → o3 < 256 → o4 < 256 →
      to_bitfield_ipv4 (quadText o1 o2 o3 o4) =
        .ok (charbinmap o1 ++ (charbinmap o2 ++ (charbinmap o3 ++ (charbinmap o4 ++ []))))) ∧
    (∀ s : List Char, 4 < (pySplitOn '.' s).length →
      to_bitfield_ipv4 s = .error .valueError) ∧
    (∀ s : List Char, [] ∈ pySplitOn '.' s → to_bitfield_ipv4 s = .error .valueError) ∧
    (∀ s p1 p2 p3 p4 : List Char, pySplitOn '.' s = [p1, p2, p3, p4] →
      canonDec p1 = true → canonDec p2 = true → canonDec p3 = true → canonDec p4 = true →
      (255 < digitsVal 10 0 p1 ∨ 255 < digitsVal 10 0 p2 ∨ 255 < digitsVal 10 0 p3 ∨
        255 < digitsVal 10 0 p4) →
      to_bitfield_ipv4 s = .error .valueError) := by
  refine ⟨to_bitfield_ipv4_quadText, ?_, ?_, ?_⟩
  · intro s h
    rw [to_bitfield_ipv4, inet_aton_too_many s h]
  · intro s h
    rw [to_bitfield_ipv4, inet_aton_empty_part s h]
  · intro s p1 p2 p3 p4 hsplit hc1 hc2 hc3 hc4 hbig
    rw [to_bitfield_ipv4, inet_aton_canon_overflow s p1 p2 p3 p4 hsplit hc1 hc2 hc3 hc4 hbig]

theorem C4_witness :
    to_bitfield_ipv4 "10.20.30.40".data =
      .ok (charbinmap 10 ++ (charbinmap 20 ++ (charbinmap 30 ++ (charbinmap 40 ++ [])))) ∧
    to_bitfield_ipv4 "1.2.3.4.5".data = .error .valueError ∧
    to_bitfield_ipv4 "1..2.3".data = .error .valueError ∧
    to_bitfield_ipv4 "256.0.0.1".data = .error .valueError := by
  obtain ⟨h1, h2, h3, h4⟩ := C4_encode_ipv4_amended
  refine ⟨?_, h2 _ (by decide), h3 _ (by decide), ?_⟩
  · have h := h1 10 20 30 40 (by decide) (by decide) (by decide) (by decide)
    have hq : quadText 10 20 30 40 = "10.20.30.40".data := by decide
    rw [hq] at h
    exact h
  · exact h4 "256.0.0.1".data "256".data "0".data "0".data "1".data (by decide) (by decide)
      (by decide) (by decide) (by decide) (by decide)

/-!  The IPv4-mapped IPv6 encoding of a canonical quad. -/

theorem ipv4addrmask_eq :
    ipv4addrmask = List.replicate 80 '0' ++ List.replicate 16 '1' := by decide

theorem isPrefixOf_append_self (l r : List Char) : l.isPrefixOf (l ++ r) = true := by
  rw [List.isPrefixOf_iff_prefix]
  exact List.prefix_append l r

theorem mem_quadText {o1 o2 o3 o4 : Nat} {c : Char} (hc : c ∈ quadText o1 o2 o3 o4) :
    c = '.' ∨ c ∈ natToDec o1 ∨ c ∈ natToDec o2 ∨ c ∈ natToDec o3 ∨ c ∈ natToDec o4 := by
  rw [quadText] at hc
  simp only [List.mem_append, List.mem_cons] at hc
  tauto

theorem quadText_ne_nil {o1 o2 o3 o4 : Nat} :
    quadText o1 o2 o3 o4 ≠ [] := by
  intro h
  rw [quadText] at h
  simp [List.append_eq_nil] at h

theorem quadText_no_colon {o1 o2 o3 o4 : Nat} (h1 : o1 < 256) (h2 : o2 < 256)
    (h3 : o3 < 256) (h4 : o4 < 256) : ∀ c ∈ quadText o1 o2 o3 o4, c ≠ ':' := by
  intro c hc
  rcases mem_quadText hc with rfl | h | h | h | h
  · decide
  · exact natToDec_no_colon o1 h1 c h
  · exact natToDec_no_colon o2 h2 c h
  · exact natToDec_no_colon o3 h3 c h
  · exact natToDec_no_colon o4 h4 c h

theorem quadText_contains_dot (o1 o2 o3 o4 : Nat) :
    (quadText o1 o2 o3 o4).contains '.' = true := by
  apply List.elem_iff.mpr
  rw [quadText]
  exact List.mem_append_right _ (List.mem_cons_self '.' _)

theorem decode32_charbinmap (o1 o2 o3 o4 : Nat) (h1 : o1 < 256) (h2 : o2 < 256)
    (h3 : o3 < 256) (h4 : o4 < 256) :
    decode32 (charbinmap o1 ++ (charbinmap o2 ++ (charbinmap o3 ++ (charbinmap o4 ++ [])))) =
      quadText o1 o2 o3 o4 := by
  have t0 : (charbinmap o1 ++ (charbinmap o2 ++ (charbinmap o3 ++
      (charbinmap o4 ++ [])))).take 8 = charbinmap o1 :=
    List.take_left' (length_charbinmap o1)
  have d8 : (charbinmap o1 ++ (charbinmap o2 ++ (charbinmap o3 ++
      (charbinmap o4 ++ [])))).drop 8 = charbinmap o2 ++ (charbinmap o3 ++
      (charbinmap o4 ++ [])) :=
    List.drop_left' (length_charbinmap o1)
  have t8 : ((charbinmap o1 ++ (charbinmap o2 ++ (charbinmap o3 ++
      (charbinmap o4 ++ [])))).drop 8).take 8 = charbinmap o2 := by
    rw [d8]
    exact List.take_left' (length_charbinmap o2)
  have hre16 : charbinmap o1 ++ (charbinmap o2 ++ (charbinmap o3 ++ (charbinmap o4 ++ []))) =
      (charbinmap o1 ++ charbinmap o2) ++ (charbinmap o3 ++ (charbinmap o4 ++ [])) := by
    simp [List.append_assoc]
  have d16 : (charbinmap o1 ++ (charbinmap o2 ++ (charbinmap o3 ++
      (charbinmap o4 ++ [])))).drop 16 = charbinmap o3 ++ (charbinmap o4 ++ []) := by
    rw [hre16]
    exact List.drop_left' (by simp [length_charbinmap])
  have t16 : ((charbinmap o1 ++ (charbinmap o2 ++ (charbinmap o3 ++
      (charbinmap o4 ++ [])))).drop 16).take 8 = charbinmap o3 := by
    rw [d16]
    exact List.take_left' (length_charbinmap o3)
  have hre24 : charbinmap o1 ++ (charbinmap o2 ++ (charbinmap o3 ++ (charbinmap o4 ++ []))) =
      (charbinmap o1 ++ (charbinmap o2 ++ charbinmap o3)) ++ (charbinmap o4 ++ []) := by
    simp [List.append_assoc]
  have d24 : (charbinmap o1 ++ (charbinmap o2 ++ (charbinmap o3 ++
      (charbinmap o4 ++ [])))).drop 24 = charbinmap o4 ++ [] := by
    rw [hre24]
    exact List.drop_left' (by simp [length_charbinmap])
  have t24 : ((charbinmap o1 ++ (charbinmap o2 ++ (charbinmap o3 ++
      (charbinmap o4 ++ [])))).drop 24).take 8 = charbinmap o4 := by
    rw [d24]
    exact List.take_left' (length_charbinmap o4)
  rw [decode32, t0, t8, t16, t24, binVal_charbinmap o1 h1, binVal_charbinmap o2 h2,
    binVal_charbinmap o3 h3, binVal_charbinmap o4 h4, quadText]

theorem to_bitfield_ipv6_mapped_quad (o1 o2 o3 o4 : Nat) (h1 : o1 < 256) (h2 : o2 < 256)
    (h3 : o3 < 256) (h4 : o4 < 256) :
    to_bitfield_ipv6 (':' :: ':' :: 'f' :: 'f' :: 'f' :: 'f' :: ':' :: quadText o1 o2 o3 o4) =
      .ok (List.replicate 80 '0' ++ (List.replicate 16 '1' ++
        (charbinmap o1 ++ (charbinmap o2 ++ (charbinmap o3 ++ (charbinmap o4 ++ [])))))) := by
  have hqnil : quadText o1 o2 o3 o4 ≠ [] := quadText_ne_nil
  have hqnc : ∀ c ∈ quadText o1 o2 o3 o4, c ≠ ':' := quadText_no_colon h1 h2 h3 h4
  have hqdot : (quadText o1 o2 o3 o4).contains '.' = true := quadText_contains_dot o1 o2 o3 o4
  have hedit : ipv6Edit (':' :: ':' :: 'f' :: 'f' :: 'f' :: 'f' :: ':' :: quadText o1 o2 o3 o4) =
      .ok (':' :: 'f' :: 'f' :: 'f' :: 'f' :: ':' :: quadText o1 o2 o3 o4) := rfl
  have hsplit : pySplitOn ':' (':' :: 'f' :: 'f' :: 'f' :: 'f' :: ':' :: quadText o1 o2 o3 o4) =
      [[], ['f', 'f', 'f', 'f'], quadText o1 o2 o3 o4] := by
    rw [pySplitOn_cons_sep]
    have he : ('f' :: 'f' :: 'f' :: 'f' :: ':' :: quadText o1 o2 o3 o4) =
        ['f', 'f', 'f', 'f'] ++ ':' :: quadText o1 o2 o3 o4 := by simp
    rw [he, pySplitOn_append, pySplitOn_no_sep ':' ['f', 'f', 'f', 'f'] (by decide),
      pySplitOn_no_sep ':' _ hqnc]
    rfl
  have s12 : ipv6Parts false [] [[], ['f', 'f', 'f', 'f'], quadText o1 o2 o3 o4] =
      ipv6Parts true (':' :: List.replicate 16 '1') [quadText o1 o2 o3 o4] := rfl
  have hflen : (charbinmap o1 ++ (charbinmap o2 ++ (charbinmap o3 ++
      (charbinmap o4 ++ [])))).length = 32 := by
    simp [length_charbinmap]
  have s3 : ipv6Parts true (':' :: List.replicate 16 '1') [quadText o1 o2 o3 o4] =
      .ok (true, ':' :: List.replicate 16 '1' ++
        (charbinmap o1 ++ (charbinmap o2 ++ (charbinmap o3 ++ (charbinmap o4 ++ []))))) := by
    simp only [ipv6Parts, hqnil, hqdot, if_true, if_false,
      to_bitfield_ipv4_quadText o1 o2 o3 o4 h1 h2 h3 h4, hflen]
    simp
  rw [to_bitfield_ipv6, hedit]
  show (match ipv6Parts false []
      (pySplitOn ':' (':' :: 'f' :: 'f' :: 'f' :: 'f' :: ':' :: quadText o1 o2 o3 o4)) with
    | .error e => Except.error e
    | .ok (dc, b) =>
      let b :=
        if dc then
          b.take (b.indexOf ':') ++ List.replicate (129 - b.length) '0' ++ b.drop (b.indexOf ':' + 1)
        else b
      if b.length = 128 then Except.ok b else Except.error PyErr.valueError) = _
  rw [hsplit, s12, s3]
  show (let b :=
      if true then
        (':' :: List.replicate 16 '1' ++ (charbinmap o1 ++ (charbinmap o2 ++ (charbinmap o3 ++
          (charbinmap o4 ++ []))))).take _ ++ List.replicate (129 - _) '0' ++ _
      else _
    if b.length = 128 then Except.ok b else Except.error PyErr.valueError) = _
  simp only [if_true, List.indexOf_cons_self, List.take_zero, List.drop_succ_cons,
    List.drop_zero, List.length_cons, List.length_append, List.length_replicate, hflen,
    length_charbinmap, List.nil_append]
  simp [length_charbinmap]

theorem ipv6_to_ipv4_ok (ip b : List Char) (hb : to_bitfield_ipv6 ip = .ok b)
    (hm : ipv4addrmask.isPrefixOf b = true) :
    ipv6_to_ipv4 ip = .ok (decode32 (b.drop (b.length - 32))) := by
  simp only [ipv6_to_ipv4, hb, hm, if_true]

/-- C8: IPv4 round trip on canonical texts.  For octet values 0-255
rendered canonically (decimal, no leading zeros), the encoder accepts
the dotted quad and produces the big-endian byte concatenation, the
decoding loop of `ipv6_to_ipv4` inverts it exactly, and the IPv4-mapped
form `::ffff:a` converts back to exactly the embedded literal `a`. -/
theorem C8_ipv4_roundtrip (o1 o2 o3 o4 : Nat) (h1 : o1 < 256) (h2 : o2 < 256)
    (h3 : o3 < 256) (h4 : o4 < 256) :
    to_bitfield_ipv4 (quadText o1 o2 o3 o4) =
      .ok (charbinmap o1 ++ (charbinmap o2 ++ (charbinmap o3 ++ (charbinmap o4 ++ [])))) ∧
    decode32 (charbinmap o1 ++ (charbinmap o2 ++ (charbinmap o3 ++ (charbinmap o4 ++ [])))) =
      quadText o1 o2 o3 o4 ∧
    ipv6_to_ipv4 ("::ffff:".data ++ quadText o1 o2 o3 o4) = .ok (quadText o1 o2 o3 o4) := by
  refine ⟨to_bitfield_ipv4_quadText o1 o2 o3 o4 h1 h2 h3 h4,
    decode32_charbinmap o1 o2 o3 o4 h1 h2 h3 h4, ?_⟩
  have hdata : "::ffff:".data ++ quadText o1 o2 o3 o4 =
      ':' :: ':' :: 'f' :: 'f' :: 'f' :: 'f' :: ':' :: quadText o1 o2 o3 o4 := rfl
  rw [hdata]
  have hassoc : List.replicate 80 '0' ++ (List.replicate 16 '1' ++
      (charbinmap o1 ++ (charbinmap o2 ++ (charbinmap o3 ++ (charbinmap o4 ++ []))))) =
      (List.replicate 80 '0' ++ List.replicate 16 '1') ++
      (charbinmap o1 ++ (charbinmap o2 ++ (charbinmap o3 ++ (charbinmap o4 ++ [])))) := by
    rw [List.append_assoc]
  have hmask : ipv4addrmask.isPrefixOf (List.replicate 80 '0' ++ (List.replicate 16 '1' ++
      (charbinmap o1 ++ (charbinmap o2 ++ (charbinmap o3 ++ (charbinmap o4 ++ [])))))) = true := by
    rw [hassoc, ipv4addrmask_eq]
    exact isPrefixOf_append_self _ _
  rw [ipv6_to_ipv4_ok _ _ (to_bitfield_ipv6_mapped_quad o1 o2 o3 o4 h1 h2 h3 h4) hmask]
  have hBlen : (List.replicate 80 '0' ++ (List.replicate 16 '1' ++
      (charbinmap o1 ++ (charbinmap o2 ++ (charbinmap o3 ++
        (charbinmap o4 ++ [])))))).length = 128 := by
    simp [length_charbinmap]
  rw [hBlen]
  have hdrop : (List.replicate 80 '0' ++ (List.replicate 16 '1' ++
      (charbinmap o1 ++ (charbinmap o2 ++ (charbinmap o3 ++
        (charbinmap o4 ++ [])))))).drop (128 - 32) =
      charbinmap o1 ++ (charbinmap o2 ++ (charbinmap o3 ++ (charbinmap o4 ++ []))) := by
    rw [hassoc]
    exact List.drop_left' (by simp)
  rw [hdrop, decode32_charbinmap o1 o2 o3 o4 h1 h2 h3 h4]

theorem C8_witness :
    ipv6_to_ipv4 "::ffff:10.20.30.40".data = .ok "10.20.30.40".data := by
  have h := (C8_ipv4_roundtrip 10 20 30 40 (by decide) (by decide) (by decide) (by decide)).2.2
  have e1 : "::ffff:".data ++ quadText 10 20 30 40 = "::ffff:10.20.30.40".data := by decide
  have e2 : quadText 10 20 30 40 = "10.20.30.40".data := by decide
  rw [e1, e2] at h
  exact h

/-!  Bulk loading. -/

theorem pyLt_asymm : ∀ a b : List Char, pyLt a b = true → pyLt b a = false
  | [], [], h => by simp [pyLt] at h
  | [], _ :: _, _ => by simp [pyLt]
  | _ :: _, [], h => by simp [pyLt] at h
  | a :: as, b :: bs, h => by
    simp only [pyLt, Bool.or_eq_true, Bool.and_eq_true, beq_iff_eq] at h ⊢
    rcases h with hab | ⟨rfl, htail⟩
    · have h1 := charLt_iff.mp hab
      refine Bool.or_eq_false_iff.mpr ⟨charLt_false_iff.mpr (by omega), ?_⟩
      refine Bool.and_eq_false_iff.mpr (Or.inl ?_)
      simp only [beq_eq_false_iff_ne, ne_eq]
      intro hba
      rw [hba] at h1
      omega
    · refine Bool.or_eq_false_iff.mpr ⟨charLt_self a, ?_⟩
      refine Bool.and_eq_false_iff.mpr (Or.inr (pyLt_asymm as bs htail))

theorem mem_insort : ∀ (l : List (List Char)) (x y : List Char),
    y ∈ insort l x ↔ y = x ∨ y ∈ l
  | [], x, y => by simp [insort]
  | h :: t, x, y => by
    rw [insort]
    by_cases hlt : pyLt x h = true
    · rw [if_pos hlt]
      simp [List.mem_cons]
    · rw [if_neg hlt]
      simp only [List.mem_cons, mem_insort t x y]
      tauto

theorem isSortedLe_cons_of {a : List Char} {l : List (List Char)}
    (hl : isSortedLe l = true) (hall : ∀ y ∈ l, pyLt y a = false) :
    isSortedLe (a :: l) = true := by
  cases l with
  | nil => rfl
  | cons b t =>
    show (!pyLt b a && isSortedLe (b :: t)) = true
    rw [hall b (List.mem_cons_self b t), hl]
    rfl

theorem insort_sorted : ∀ (l : List (List Char)) (x : List Char),
    isSortedLe l = true → isSortedLe (insort l x) = true
  | [], x, _ => rfl
  | h :: t, x, hs => by
    rcases isSortedLe_cons hs with ⟨hst, hall⟩
    rw [insort]
    by_cases hlt : pyLt x h = true
    · rw [if_pos hlt]
      refine isSortedLe_cons_of hs ?_
      intro y hy
      rcases List.mem_cons.mp hy with rfl | hy'
      · exact pyLt_asymm x y hlt
      · exact pyLe_trans (pyLt_asymm x h hlt) (hall y hy')
    · rw [if_neg hlt]
      refine isSortedLe_cons_of (insort_sorted t x hst) ?_
      intro y hy
      rcases (mem_insort t x y).mp hy with rfl | hy'
      · cases h' : pyLt y h
        · rfl
        · exact absurd h' hlt
      · exact hall y hy'

theorem pySortedList_sorted (l : List (List Char)) : isSortedLe (pySortedList l) = true := by
  rw [pySortedList]
  have haux : ∀ (l : List (List Char)) (acc : List (List Char)), isSortedLe acc = true →
      isSortedLe (l.foldl insort acc) = true := by
    intro l
    induction l with
    | nil => intro acc h; exact h
    | cons x t ih =>
      intro acc h
      rw [List.foldl_cons]
      exact ih (insort acc x) (insort_sorted acc x h)
  exact haux l [] rfl

theorem _append_cases (L : IP_List) (ip : List Char) (d : Option Int) :
    (∃ e, L._append ip d = .ok ⟨L.ipv4list ++ [e], L.ipv6list⟩ ∧
      IP_List._append ⟨[], []⟩ ip d = .ok ⟨[e], []⟩) ∨
    (∃ e, L._append ip d = .ok ⟨L.ipv4list, L.ipv6list ++ [e]⟩ ∧
      IP_List._append ⟨[], []⟩ ip d = .ok ⟨[], [e]⟩) ∨
    (∃ err, L._append ip d = .error err ∧ IP_List._append ⟨[], []⟩ ip d = .error err) := by
  rw [IP_List._append, IP_List._append]
  by_cases hc : ip.contains ':' = true
  · simp only [hc, if_true]
    cases h6 : to_bitfield_ipv6 ip with
    | error e => exact Or.inr (Or.inr ⟨e, rfl, rfl⟩)
    | ok b =>
      by_cases hm : ipv4addrmask.isPrefixOf b = true
      · simp only [hm, if_true]
        cases d with
        | none => exact Or.inr (Or.inr ⟨.typeError, rfl, rfl⟩)
        | some dd => exact Or.inl ⟨pySliceTo (b.drop 96) (dd - 96), rfl, rfl⟩
      · simp only [Bool.not_eq_true] at hm
        simp only [hm, Bool.false_eq_true, if_false]
        exact Or.inr (Or.inl ⟨sliceOpt b d, rfl, rfl⟩)
  · simp only [Bool.not_eq_true] at hc
    simp only [hc, Bool.false_eq_true, if_false]
    cases h4 : to_bitfield_ipv4 ip with
    | error e => exact Or.inr (Or.inr ⟨e, rfl, rfl⟩)
    | ok b => exact Or.inl ⟨sliceOpt b d, rfl, rfl⟩

theorem processLine_eq (L : IP_List) (raw : List Char) :
    processLine L raw =
      match lineEntry raw with
      | none => L
      | some (true, e) => ⟨L.ipv4list ++ [e], L.ipv6list⟩
      | some (false, e) => ⟨L.ipv4list, L.ipv6list ++ [e]⟩ := by
  rw [lineEntry]
  simp only [processLine]
  by_cases hskip : (pyExpandtabs (pyStrip raw) = [] ||
      (pyExpandtabs (pyStrip raw)).head? = some '#') = true
  · simp only [hskip, if_true]
  · rw [Bool.not_eq_true] at hskip
    simp only [hskip, Bool.false_eq_true, if_false]
    rcases hsp : pySplitOn '/' (beforeFirst '#' (beforeFirst ' '
        (pyExpandtabs (pyStrip raw)))) with _ | ⟨a, _ | ⟨b, _ | ⟨c, rest⟩⟩⟩ <;>
      simp only [hsp]
    · rcases _append_cases L (beforeFirst '#' (beforeFirst ' ' (pyExpandtabs (pyStrip raw))))
          none with ⟨e, h1, h2⟩ | ⟨e, h1, h2⟩ | ⟨err, h1, h2⟩ <;> simp only [h1, h2]
    · rcases _append_cases L (beforeFirst '#' (beforeFirst ' ' (pyExpandtabs (pyStrip raw))))
          none with ⟨e, h1, h2⟩ | ⟨e, h1, h2⟩ | ⟨err, h1, h2⟩ <;> simp only [h1, h2]
    · cases hint : pyInt b with
      | error e => simp only [hint]
      | ok v =>
        simp only [hint]
        rcases _append_cases L a (some v) with ⟨e, h1, h2⟩ | ⟨e, h1, h2⟩ | ⟨err, h1, h2⟩ <;>
          simp only [h1, h2]
    · rcases _append_cases L (beforeFirst '#' (beforeFirst ' ' (pyExpandtabs (pyStrip raw))))
          none with ⟨e, h1, h2⟩ | ⟨e, h1, h2⟩ | ⟨err, h1, h2⟩ <;> simp only [h1, h2]

theorem foldl_processLine : ∀ (lines : List (List Char)) (L : IP_List),
    lines.foldl processLine L =
      ⟨L.ipv4list ++ linesV4 lines, L.ipv6list ++ linesV6 lines⟩
  | [], L => by simp [linesV4, linesV6, List.filterMap_nil]
  | raw :: rest, L => by
    rw [List.foldl_cons, foldl_processLine rest (processLine L raw), processLine_eq L raw]
    cases hle : lineEntry raw with
    | none => simp [linesV4, linesV6, List.filterMap_cons, hle]
    | some pe =>
      rcases pe with ⟨fam, e⟩
      cases fam <;> simp [linesV4, linesV6, List.filterMap_cons, hle, List.append_assoc]

/-- C9: `read_fieldlist` never aborts (it is a total function into the
store): the result is exactly the old store plus the entries of the
successfully parsed lines, sorted once per family at the end; a line
that parses to nothing (blank, comment, or malformed at any stage)
leaves the result exactly as if the line were absent (no partial
insertion); and the concrete two-line source of the claim — one good
line `192.168.1.0/24` and one bad line `not-an-ip/24` — loads exactly
one 24-bit entry. -/
theorem C9_bulk_load_tolerant :
    (∀ (L : IP_List) (lines : List (List Char)),
      L.read_fieldlist lines =
        ⟨pySortedList (L.ipv4list ++ linesV4 lines),
         pySortedList (L.ipv6list ++ linesV6 lines)⟩) ∧
    (∀ (L : IP_List) (lines : List (List Char)),
      isSortedLe (L.read_fieldlist lines).ipv4list = true ∧
      isSortedLe (L.read_fieldlist lines).ipv6list = true) ∧
    (∀ (L : IP_List) (pre post : List (List Char)) (bad : List Char),
      lineEntry bad = none →
      L.read_fieldlist (pre ++ bad :: post) = L.read_fieldlist (pre ++ post)) ∧
    ((IP_List.mk [] []).read_fieldlist ["192.168.1.0/24".data, "not-an-ip/24".data] =
        ⟨[(charbinmap 192 ++ charbinmap 168 ++ charbinmap 1 ++ charbinmap 0 ++ []).take 24],
         []⟩ ∧
      lineEntry "not-an-ip/24".data = none) := by
  have hchar : ∀ (L : IP_List) (lines : List (List Char)),
      L.read_fieldlist lines =
        ⟨pySortedList (L.ipv4list ++ linesV4 lines),
         pySortedList (L.ipv6list ++ linesV6 lines)⟩ := by
    intro L lines
    rw [IP_List.read_fieldlist, foldl_processLine lines L]
  refine ⟨hchar, ?_, ?_, by decide, by decide⟩
  · intro L lines
    rw [hchar]
    exact ⟨pySortedList_sorted _, pySortedList_sorted _⟩
  · intro L pre post bad hbad
    rw [IP_List.read_fieldlist, IP_List.read_fieldlist, List.foldl_append, List.foldl_append,
      List.foldl_cons]
    have hstep : processLine (pre.foldl processLine L) bad = pre.foldl processLine L := by
      rw [processLine_eq, hbad]
    rw [hstep]

theorem C9_witness :
    (IP_List.mk [] []).read_fieldlist
        (["192.168.1.0/24".data] ++ "not-an-ip/24".data :: ["10.0.0.0/8".data]) =
      (IP_List.mk [] []).read_fieldlist (["192.168.1.0/24".data] ++ ["10.0.0.0/8".data]) :=
  C9_bulk_load_tolerant.2.2.1 (IP_List.mk [] []) ["192.168.1.0/24".data]
    ["10.0.0.0/8".data] "not-an-ip/24".data (by decide)

/-!  IPv6 encoder failure modes. -/

theorem to_bitfield_ipv6_edit_err {t : List Char} {e : PyErr} (h : ipv6Edit t = .error e) :
    to_bitfield_ipv6 t = .error e := by
  simp only [to_bitfield_ipv6, h]

theorem to_bitfield_ipv6_parts_err {t ip : List Char} {e : PyErr}
    (h1 : ipv6Edit t = .ok ip) (h2 : ipv6Parts false [] (pySplitOn ':' ip) = .error e) :
    to_bitfield_ipv6 t = .error e := by
  simp only [to_bitfield_ipv6, h1, h2]

theorem ipv6Parts_empty_dc : ∀ (P2 P3 : List (List Char)) (b : List Char),
    ∃ e, ipv6Parts true b (P2 ++ [] :: P3) = .error e
  | [], P3, b => ⟨.valueError, rfl⟩
  | n :: P2', P3, b => by
    rw [List.cons_append]
    by_cases hn : n = []
    · subst hn
      exact ⟨.valueError, rfl⟩
    · simp only [ipv6Parts, hn, if_false]
      by_cases hdot : n.contains '.' = true
      · simp only [hdot, if_true]
        cases h4 : to_bitfield_ipv4 n with
        | ok v4 => exact ipv6Parts_empty_dc P2' P3 _
        | error e => exact ⟨e, rfl⟩
      · rw [Bool.not_eq_true] at hdot
        simp only [hdot, Bool.false_eq_true, if_false]
        cases hx : hextetBits n with
        | ok hb => exact ipv6Parts_empty_dc P2' P3 _
        | error e => exact ⟨e, rfl⟩

theorem ipv6Parts_two_empty : ∀ (P1 P2 P3 : List (List Char)) (b : List Char),
    ∃ e, ipv6Parts false b (P1 ++ [] :: (P2 ++ [] :: P3)) = .error e
  | [], P2, P3, b => by
    rw [List.nil_append]
    exact ipv6Parts_empty_dc P2 P3 (b ++ [':'])
  | n :: P1', P2, P3, b => by
    rw [List.cons_append]
    by_cases hn : n = []
    · subst hn
      show ∃ e, ipv6Parts true (b ++ [':']) (P1' ++ [] :: (P2 ++ [] :: P3)) = .error e
      rcases ipv6Parts_empty_dc (P1' ++ [] :: P2) P3 (b ++ [':']) with ⟨e, he⟩
      refine ⟨e, ?_⟩
      simpa [List.append_assoc] using he
    · simp only [ipv6Parts, hn, if_false]
      by_cases hdot : n.contains '.' = true
      · simp only [hdot, if_true]
        cases h4 : to_bitfield_ipv4 n with
        | ok v4 => exact ipv6Parts_two_empty P1' P2 P3 _
        | error e => exact ⟨e, rfl⟩
      · rw [Bool.not_eq_true] at hdot
        simp only [hdot, Bool.false_eq_true, if_false]
        cases hx : hextetBits n with
        | ok hb => exact ipv6Parts_two_empty P1' P2 P3 _
        | error e => exact ⟨e, rfl⟩

theorem hexbinmap_none {c : Char} (hbad : (isLowerHex c || c = 'x') = false) :
    hexbinmap c = none := by
  rcases Bool.or_eq_false_iff.mp hbad with ⟨hlh, hx⟩
  have hx' : c ≠ 'x' := by simpa using hx
  have hdig : ¬ ('0' ≤ c ∧ c ≤ '9') := by
    intro h
    have hd : isDig c = true := by
      simp only [isDig, Bool.and_eq_true, decide_eq_true_eq]
      exact h
    rw [isLowerHex] at hlh
    simp [hd] at hlh
  have haf : ¬ ('a' ≤ c ∧ c ≤ 'f') := by
    intro h
    rw [isLowerHex] at hlh
    simp [h.1, h.2] at hlh
  rw [hexbinmap, if_neg hx', if_neg hdig, if_neg haf]

theorem hextetBits_invalid {p : List Char} {c : Char} (hc : c ∈ p)
    (hbad : (isLowerHex c || c = 'x') = false) : hextetBits p = .error .keyError := by
  rw [hextetBits,
    optionMapM_none (List.replicate (4 - p.length) 'x' ++ p) c
      (List.mem_append_right _ hc) (hexbinmap_none hbad)]

theorem ipv6Parts_bad_part : ∀ (parts : List (List Char)) (p : List Char)
    (dc : Bool) (b : List Char), p ∈ parts → ('.' ∈ p → False) →
    (∃ c ∈ p, (isLowerHex c || c = 'x') = false) →
    ∃ e, ipv6Parts dc b parts = .error e
  | [], p, dc, b, hp, _, _ => absurd hp (List.not_mem_nil p)
  | n :: rest, p, dc, b, hp, hdot, hbad => by
    obtain ⟨c, hc, hcbad⟩ := hbad
    by_cases hn : n = []
    · subst hn
      have hpr : p ∈ rest := by
        rcases List.mem_cons.mp hp with rfl | h
        · exact absurd hc (List.not_mem_nil c)
        · exact h
      cases dc with
      | true => exact ⟨.valueError, rfl⟩
      | false =>
        show ∃ e, ipv6Parts true (b ++ [':']) rest = .error e
        exact ipv6Parts_bad_part rest p true _ hpr hdot ⟨c, hc, hcbad⟩
    · simp only [ipv6Parts, hn, if_false]
      by_cases hnp : n = p
      · subst hnp
        have hcont : n.contains '.' = false := by
          cases h' : n.contains '.'
          · rfl
          · exact absurd (List.elem_iff.mp h') hdot
        simp only [hcont, Bool.false_eq_true, if_false,
          hextetBits_invalid hc hcbad]
        exact ⟨.keyError, rfl⟩
      · have hpr : p ∈ rest := by
          rcases List.mem_cons.mp hp with rfl | h
          · exact absurd rfl hnp
          · exact h
        by_cases hdotn : n.contains '.' = true
        · simp only [hdotn, if_true]
          cases h4 : to_bitfield_ipv4 n with
          | ok v4 => exact ipv6Parts_bad_part rest p dc _ hpr hdot ⟨c, hc, hcbad⟩
          | error e => exact ⟨e, rfl⟩
        · rw [Bool.not_eq_true] at hdotn
          simp only [hdotn, Bool.false_eq_true, if_false]
          cases hx : hextetBits n with
          | ok hb => exact ipv6Parts_bad_part rest p dc _ hpr hdot ⟨c, hc, hcbad⟩
          | error e => exact ⟨e, rfl⟩

theorem ipv6Edit_out (t : List Char) :
    (∃ e, ipv6Edit t = .error e) ∨
    (t = [':', ':'] ∧ ipv6Edit t = .ok []) ∨
    (t.take 2 = [':', ':'] ∧ t ≠ [':', ':'] ∧ ipv6Edit t = .ok t.tail) ∨
    (t.drop (t.length - 2) = [':', ':'] ∧ t.take 2 ≠ [':', ':'] ∧ t.head? ≠ some ':' ∧
      ipv6Edit t = .ok t.dropLast) ∨
    (ipv6Edit t = .ok t) := by
  by_cases h1 : t = []
  · exact Or.inl ⟨.valueError, by rw [ipv6Edit, if_pos h1]⟩
  by_cases h2 : t = [':', ':']
  · exact Or.inr (Or.inl ⟨h2, by rw [ipv6Edit, if_neg h1, if_pos h2]⟩)
  by_cases h3 : t.take 2 = [':', ':']
  · exact Or.inr (Or.inr (Or.inl ⟨h3, h2,
      by rw [ipv6Edit, if_neg h1, if_neg h2, if_pos h3]⟩))
  by_cases h4 : t.head? = some ':'
  · exact Or.inl ⟨.valueError, by rw [ipv6Edit, if_neg h1, if_neg h2, if_neg h3, if_pos h4]⟩
  by_cases h5 : t.drop (t.length - 2) = [':', ':']
  · exact Or.inr (Or.inr (Or.inr (Or.inl ⟨h5, h3, h4,
      by rw [ipv6Edit, if_neg h1, if_neg h2, if_neg h3, if_neg h4, if_pos h5]⟩)))
  by_cases h6 : t.getLast? = some ':'
  · exact Or.inl ⟨.valueError,
      by rw [ipv6Edit, if_neg h1, if_neg h2, if_neg h3, if_neg h4, if_neg h5, if_pos h6]⟩
  · exact Or.inr (Or.inr (Or.inr (Or.inr
      (by rw [ipv6Edit, if_neg h1, if_neg h2, if_neg h3, if_neg h4, if_neg h5, if_neg h6]))))

theorem lead_colon_err (t : List Char) (h1 : t.head? = some ':')
    (h2 : t.tail.head? ≠ some ':') : ∃ e, to_bitfield_ipv6 t = .error e := by
  rcases t with _ | ⟨c0, _ | ⟨c1, rest⟩⟩
  · simp at h1
  · have hc0 : c0 = ':' := by simpa using h1
    subst hc0
    exact ⟨.valueError, by decide⟩
  · have hc0 : c0 = ':' := by simpa using h1
    subst hc0
    have hc1 : c1 ≠ ':' := by simpa using h2
    refine ⟨.valueError, to_bitfield_ipv6_edit_err ?_⟩
    rw [ipv6Edit, if_neg (by simp), if_neg (by simp [hc1]), if_neg (by simp [hc1]), if_pos h1]

theorem pySplitOn_double_double (u v w : List Char) :
    pySplitOn ':' (u ++ (':' :: ':' :: (v ++ (':' :: ':' :: w)))) =
      pySplitOn ':' u ++ [] :: (pySplitOn ':' v ++ [] :: pySplitOn ':' w) := by
  rw [pySplitOn_append ':' u, pySplitOn_cons_sep, pySplitOn_append ':' v, pySplitOn_cons_sep]

theorem double_double_colon_err (u v w : List Char) :
    ∃ e, to_bitfield_ipv6 (u ++ (':' :: ':' :: (v ++ (':' :: ':' :: w)))) = .error e := by
  rcases ipv6Edit_out (u ++ (':' :: ':' :: (v ++ (':' :: ':' :: w)))) with
    ⟨e, he⟩ | ⟨heq, _⟩ | ⟨_, _, he⟩ | ⟨hdrop, _, _, he⟩ | he
  · exact ⟨e, to_bitfield_ipv6_edit_err he⟩
  · exfalso
    have hlen := congrArg List.length heq
    simp [List.length_append] at hlen
    omega
  · cases u with
    | nil =>
      rcases ipv6Parts_empty_dc (pySplitOn ':' v) (pySplitOn ':' w) [':'] with ⟨e, hee⟩
      refine ⟨e, to_bitfield_ipv6_parts_err he ?_⟩
      show ipv6Parts false [] (pySplitOn ':' (':' :: (v ++ (':' :: ':' :: w)))) = .error e
      rw [pySplitOn_cons_sep, pySplitOn_append ':' v, pySplitOn_cons_sep]
      show ipv6Parts true ([] ++ [':']) (pySplitOn ':' v ++ [] :: pySplitOn ':' w) = .error e
      simpa using hee
    | cons c u' =>
      rcases ipv6Parts_two_empty (pySplitOn ':' u') (pySplitOn ':' v) (pySplitOn ':' w) []
        with ⟨e, hee⟩
      refine ⟨e, to_bitfield_ipv6_parts_err he ?_⟩
      show ipv6Parts false []
        (pySplitOn ':' (u' ++ (':' :: ':' :: (v ++ (':' :: ':' :: w))))) = .error e
      rw [pySplitOn_double_double]
      exact hee
  · -- the text ends in '::': the double colons survive dropLast
    cases hw : w.eq_nil_or_concat with
    | inl hwnil =>
      subst hwnil
      have hdl : (u ++ (':' :: ':' :: (v ++ (':' :: ':' :: ([] : List Char))))).dropLast =
          u ++ (':' :: ':' :: (v ++ [':'])) := by
        rw [show u ++ (':' :: ':' :: (v ++ (':' :: ':' :: ([] : List Char)))) =
          (u ++ (':' :: ':' :: (v ++ [':']))) ++ [':'] by simp, List.dropLast_concat]
      rw [hdl] at he
      rcases ipv6Parts_two_empty (pySplitOn ':' u) (pySplitOn ':' v) [] [] with ⟨e, hee⟩
      refine ⟨e, to_bitfield_ipv6_parts_err he ?_⟩
      rw [pySplitOn_append ':' u, pySplitOn_cons_sep, pySplitOn_append ':' v]
      show ipv6Parts false []
        (pySplitOn ':' u ++ [] :: (pySplitOn ':' v ++ [[]])) = .error e
      exact hee
    | inr hwc =>
      obtain ⟨w', la, hwe⟩ := hwc
      subst hwe
      have hdl : (u ++ (':' :: ':' :: (v ++ (':' :: ':' :: (w'.concat la))))).dropLast =
          u ++ (':' :: ':' :: (v ++ (':' :: ':' :: w'))) := by
        rw [show u ++ (':' :: ':' :: (v ++ (':' :: ':' :: (w'.concat la)))) =
          (u ++ (':' :: ':' :: (v ++ (':' :: ':' :: w')))) ++ [la] by simp, List.dropLast_concat]
      rw [hdl] at he
      rcases ipv6Parts_two_empty (pySplitOn ':' u) (pySplitOn ':' v) (pySplitOn ':' w') []
        with ⟨e, hee⟩
      refine ⟨e, to_bitfield_ipv6_parts_err he ?_⟩
      rw [pySplitOn_double_double]
      exact hee
  · rcases ipv6Parts_two_empty (pySplitOn ':' u) (pySplitOn ':' v) (pySplitOn ':' w) []
      with ⟨e, hee⟩
    refine ⟨e, to_bitfield_ipv6_parts_err he ?_⟩
    rw [pySplitOn_double_double]
    exact hee

theorem trail_colon_err (t : List Char) (h1 : t.getLast? = some ':')
    (h2 : t.dropLast.getLast? ≠ some ':') : ∃ e, to_bitfield_ipv6 t = .error e := by
  by_cases hnil : t = []
  · subst hnil
    simp at h1
  by_cases heq : t = [':', ':']
  · subst heq
    simp at h2
  by_cases htake : t.take 2 = [':', ':']
  · -- leading '::' and trailing single ':': the tail still yields two empty parts
    rcases t with _ | ⟨a, _ | ⟨b, rest⟩⟩
    · simp at htake
    · simp at htake
    · simp only [List.take_succ_cons, List.take_zero] at htake
      obtain ⟨rfl, rfl⟩ : a = ':' ∧ b = ':' := by simpa using htake
      have hrest : rest ≠ [] := by
        intro h
        subst h
        exact heq rfl
      rcases List.eq_nil_or_concat rest with h | ⟨r', la, hr⟩
      · exact absurd h hrest
      rw [List.concat_eq_append] at hr
      subst hr
      have hla : la = ':' := by
        have hgl : (':' :: ':' :: (r' ++ [la])).getLast? = some la := by
          rw [show (':' :: ':' :: (r' ++ [la])) = (':' :: ':' :: r') ++ [la] by simp]
          exact List.getLast?_concat ..
        rw [hgl] at h1
        simpa using h1
      subst hla
      have hedit : ipv6Edit (':' :: ':' :: (r' ++ [':'])) =
          .ok (':' :: (r' ++ [':'])) := by
        rw [ipv6Edit, if_neg (by simp), if_neg heq, if_pos (by simp)]
        rfl
      rcases ipv6Parts_empty_dc (pySplitOn ':' r') [] [':'] with ⟨e, hee⟩
      refine ⟨e, to_bitfield_ipv6_parts_err hedit ?_⟩
      show ipv6Parts false [] (pySplitOn ':' (':' :: (r' ++ [':']))) = .error e
      rw [pySplitOn_cons_sep, pySplitOn_append ':' r' []]
      show ipv6Parts true ([] ++ [':']) (pySplitOn ':' r' ++ [[]]) = .error e
      simpa using hee
  by_cases hhead : t.head? = some ':'
  · exact ⟨.valueError, to_bitfield_ipv6_edit_err
      (by rw [ipv6Edit, if_neg hnil, if_neg heq, if_neg htake, if_pos hhead])⟩
  have hdrop : t.drop (t.length - 2) ≠ [':', ':'] := by
    intro hd
    apply h2
    have ht : t = t.take (t.length - 2) ++ [':', ':'] := by
      conv_lhs => rw [← List.take_append_drop (t.length - 2) t, hd]
    rw [show t.dropLast = t.take (t.length - 2) ++ [':'] by
      conv_lhs => rw [ht]
      rw [show t.take (t.length - 2) ++ [':', ':'] =
        (t.take (t.length - 2) ++ [':']) ++ [':'] by simp, List.dropLast_concat]]
    exact List.getLast?_concat ..
  exact ⟨.valueError, to_bitfield_ipv6_edit_err
    (by rw [ipv6Edit, if_neg hnil, if_neg heq, if_neg htake, if_neg hhead, if_neg hdrop,
      if_pos h1])⟩

theorem invalid_char_err (t p : List Char) (hp : p ∈ pySplitOn ':' t)
    (hdot : '.' ∈ p → False)
    (hbad : ∃ c ∈ p, (isLowerHex c || c = 'x') = false) :
    ∃ e, to_bitfield_ipv6 t = .error e := by
  obtain ⟨c, hc, hcb⟩ := hbad
  have hpne : p ≠ [] := by
    intro h
    subst h
    exact absurd hc (List.not_mem_nil c)
  rcases ipv6Edit_out t with ⟨e, he⟩ | ⟨heq, _⟩ | ⟨htake, hne, he⟩ | ⟨hdrop, _, _, he⟩ | he
  · exact ⟨e, to_bitfield_ipv6_edit_err he⟩
  · exfalso
    subst heq
    have hsp : pySplitOn ':' [':', ':'] = [[], [], []] := rfl
    rw [hsp] at hp
    simp at hp
    exact hpne hp
  · rcases t with _ | ⟨a, _ | ⟨b, rest⟩⟩
    · simp at htake
    · simp at htake
    · simp only [List.take_succ_cons, List.take_zero] at htake
      obtain ⟨rfl, rfl⟩ : a = ':' ∧ b = ':' := by simpa using htake
      have hsp_t : pySplitOn ':' (':' :: ':' :: rest) = [] :: [] :: pySplitOn ':' rest := by
        rw [pySplitOn_cons_sep, pySplitOn_cons_sep]
      have hp' : p ∈ pySplitOn ':' rest := by
        rw [hsp_t] at hp
        rcases List.mem_cons.mp hp with rfl | hp2
        · exact absurd rfl hpne
        rcases List.mem_cons.mp hp2 with rfl | hp3
        · exact absurd rfl hpne
        · exact hp3
      rcases ipv6Parts_bad_part ([] :: pySplitOn ':' rest) p false []
        (List.mem_cons_of_mem _ hp') hdot ⟨c, hc, hcb⟩ with ⟨e, hee⟩
      refine ⟨e, to_bitfield_ipv6_parts_err he ?_⟩
      show ipv6Parts false [] (pySplitOn ':' (':' :: rest)) = .error e
      rw [pySplitOn_cons_sep]
      exact hee
  · have ht : t = t.take (t.length - 2) ++ [':', ':'] := by
      conv_lhs => rw [← List.take_append_drop (t.length - 2) t, hdrop]
    have hsp_t : pySplitOn ':' t =
        pySplitOn ':' (t.take (t.length - 2)) ++ [[], []] := by
      conv_lhs => rw [ht]
      rw [pySplitOn_append ':' (t.take (t.length - 2)) [':'], pySplitOn_cons_sep]
      rfl
    have hp' : p ∈ pySplitOn ':' (t.take (t.length - 2)) := by
      rw [hsp_t] at hp
      rcases List.mem_append.mp hp with h | h
      · exact h
      · exfalso
        simp at h
        exact hpne h
    have hdl : t.dropLast = t.take (t.length - 2) ++ [':'] := by
      conv_lhs => rw [ht]
      rw [show t.take (t.length - 2) ++ [':', ':'] =
        (t.take (t.length - 2) ++ [':']) ++ [':'] by simp, List.dropLast_concat]
    have hsp_e : pySplitOn ':' t.dropLast =
        pySplitOn ':' (t.take (t.length - 2)) ++ [[]] := by
      rw [hdl, pySplitOn_append ':' _ []]
      rfl
    rcases ipv6Parts_bad_part (pySplitOn ':' (t.take (t.length - 2)) ++ [[]]) p false []
      (List.mem_append_left _ hp') hdot ⟨c, hc, hcb⟩ with ⟨e, hee⟩
    refine ⟨e, to_bitfield_ipv6_parts_err he ?_⟩
    rw [hsp_e]
    exact hee
  · rcases ipv6Parts_bad_part (pySplitOn ':' t) p false [] hp hdot ⟨c, hc, hcb⟩ with ⟨e, hee⟩
    exact ⟨e, to_bitfield_ipv6_parts_err he hee⟩

/-- C7 counterexample: the claim says a hextet with more than 4 hex
digits always raises `FormatError`.  `::fffff` has a five-digit
hextet, yet the encoder accepts it: the padding loop leaves long
hextets unpadded and the `::` expansion `'0' * (129 - len(b))` then
tops the string up to exactly 128 bits. -/
theorem C7_counterexample :
    to_bitfield_ipv6 "::fffff".data =
      .ok (List.replicate 108 '0' ++ List.replicate 20 '1') := by decide

/-- C7 (amended): the guaranteed failure modes of `to_bitfield_ipv6`
are: more than one `::` (two disjoint double colons anywhere), a bare
leading single colon, a bare trailing single colon, and a colon-free
component without a dot containing a character that is neither a
lowercase hex digit nor `'x'` (uppercase hex raises `KeyError`; the
padding key `'x'` is accepted and reads as zero, e.g. `x::` encodes
to all zero bits).  A hextet with more than 4 hex digits raises only
when the resulting bit string misses 128 bits: with a `::` present the
expansion can absorb the excess, and `::fffff` is accepted. -/
theorem C7_encode_ipv6_failures :
    (∀ u v w : List Char,
      ∃ e, to_bitfield_ipv6 (u ++ (':' :: ':' :: (v ++ (':' :: ':' :: w)))) = .error e) ∧
    (∀ t : List Char, t.head? = some ':' → t.tail.head? ≠ some ':' →
      ∃ e, to_bitfield_ipv6 t = .error e) ∧
    (∀ t : List Char, t.getLast? = some ':' → t.dropLast.getLast? ≠ some ':' →
      ∃ e, to_bitfield_ipv6 t = .error e) ∧
    (∀ t p : List Char, p ∈ pySplitOn ':' t → ('.' ∈ p → False) →
      (∃ c ∈ p, (isLowerHex c || c = 'x') = false) →
      ∃ e, to_bitfield_ipv6 t = .error e) ∧
    to_bitfield_ipv6 "x::".data = .ok (List.replicate 128 '0') :=
  ⟨double_double_colon_err, lead_colon_err, trail_colon_err, invalid_char_err, by decide⟩

theorem C7_witness :
    (∃ e, to_bitfield_ipv6 "1::2::3".data = .error e) ∧
    (∃ e, to_bitfield_ipv6 ":abc".data = .error e) ∧
    (∃ e, to_bitfield_ipv6 "abc:".data = .error e) ∧
    (∃ e, to_bitfield_ipv6 "FFFF::1".data = .error e) := by
  obtain ⟨ha, hb, hc, hd, _⟩ := C7_encode_ipv6_failures
  refine ⟨?_, hb _ (by decide) (by decide), hc _ (by decide) (by decide), ?_⟩
  · have h := ha "1".data "2".data "3".data
    have he : "1".data ++ (':' :: ':' :: ("2".data ++ (':' :: ':' :: "3".data))) =
        "1::2::3".data := by decide
    rw [he] at h
    exact h
  · exact hd "FFFF::1".data "FFFF".data (by decide) (by decide) ⟨'F', by decide, by decide⟩

theorem charLe_iff {a b : Char} : (a ≤ b) ↔ a.val.toNat ≤ b.val.toNat := by
  rw [Char.le_def, UInt32.le_def, BitVec.le_def]
  exact Iff.rfl

theorem bitsBE_add_mul : ∀ (n x c : Nat), bitsBE n (x + c * 2 ^ n) = bitsBE n x
  | 0, _, _ => rfl
  | m + 1, x, c => by
    have h1 : x + c * 2 ^ (m + 1) = x + c * 2 * 2 ^ m := by ring
    have h2 : (x + c * 2 * 2 ^ m) / 2 ^ m = x / 2 ^ m + c * 2 :=
      Nat.add_mul_div_right x (c * 2) (Nat.two_pow_pos m)
    simp only [bitsBE, h1, h2, Nat.add_mul_mod_self_right,
      bitsBE_add_mul m x (c * 2)]

theorem bitsBE_mod (n x : Nat) : bitsBE n x = bitsBE n (x % 2 ^ n) := by
  conv_lhs => rw [show x = x % 2 ^ n + x / 2 ^ n * 2 ^ n from by rw [Nat.mod_add_div']]
  exact bitsBE_add_mul n (x % 2 ^ n) (x / 2 ^ n)

theorem bits16_nibbles (v : Nat) :
    bitsBE 16 v =
      bitsBE 4 (v / 4096) ++ (bitsBE 4 (v / 256) ++ (bitsBE 4 (v / 16) ++ bitsBE 4 v)) := by
  simp only [bitsBE, List.cons_append, List.nil_append, List.cons.injEq, and_true]
  repeat' apply And.intro
  all_goals exact if_congr (by omega) rfl rfl

theorem hexbinmap_lower (c : Char) (h : isLowerHex c = true) :
    hexbinmap c = some (bitsBE 4 (hexDigVal c)) ∧ hexDigVal c < 16 := by
  have hn : (48 ≤ c.val.toNat ∧ c.val.toNat ≤ 57) ∨
      (97 ≤ c.val.toNat ∧ c.val.toNat ≤ 102) := by
    simp only [isLowerHex, isDig, Bool.or_eq_true, Bool.and_eq_true,
      decide_eq_true_eq] at h
    rcases h with ⟨h1, h2⟩ | ⟨h1, h2⟩
    · exact Or.inl ⟨charLe_iff.mp h1, charLe_iff.mp h2⟩
    · exact Or.inr ⟨charLe_iff.mp h1, charLe_iff.mp h2⟩
  have h57 : ('9').val.toNat = 57 := by decide
  have h48 : ('0').val.toNat = 48 := by decide
  have h97 : ('a').val.toNat = 97 := by decide
  have h102 : ('f').val.toNat = 102 := by decide
  rcases hn with ⟨h1, h2⟩ | ⟨h1, h2⟩
  · have hx : c ≠ 'x' := by
      intro he; subst he; revert h2; decide
    have hd : '0' ≤ c ∧ c ≤ '9' :=
      ⟨charLe_iff.mpr (by rw [h48]; exact h1), charLe_iff.mpr (by rw [h57]; exact h2)⟩
    have hdig : isDig c = true := by
      simp only [isDig, Bool.and_eq_true, decide_eq_true_eq]; exact hd
    refine ⟨?_, ?_⟩
    · rw [hexbinmap, if_neg hx, if_pos hd, hexDigVal, if_pos hdig]
    · rw [hexDigVal, if_pos hdig]
      show c.val.toNat - 48 < 16
      omega
  · have hx : c ≠ 'x' := by
      intro he; subst he; revert h2; decide
    have hnd : ¬('0' ≤ c ∧ c ≤ '9') := by
      intro ⟨_, hb⟩
      have := charLe_iff.mp hb
      rw [h57] at this
      omega
    have haf : 'a' ≤ c ∧ c ≤ 'f' :=
      ⟨charLe_iff.mpr (by rw [h97]; exact h1), charLe_iff.mpr (by rw [h102]; exact h2)⟩
    have hndig : ¬(isDig c = true) := by
      intro hd
      simp only [isDig, Bool.and_eq_true, decide_eq_true_eq] at hd
      have := charLe_iff.mp hd.2
      rw [h57] at this
      omega
    have hbf : ('a' ≤ c && c ≤ 'f') = true := by
      simp only [Bool.and_eq_true, decide_eq_true_eq]; exact haf
    refine ⟨?_, ?_⟩
    · rw [hexbinmap, if_neg hx, if_neg hnd, if_pos haf, hexDigVal, if_neg hndig, if_pos hbf]
    · rw [hexDigVal, if_neg hndig, if_pos hbf]
      show c.val.toNat - 87 < 16
      omega

theorem hextetBits_ok (s : List Char) (h : partOk s = true) :
    hextetBits s = .ok (bitsBE 16 (hexVal s)) ∧ hexVal s < 2 ^ 16 := by
  simp only [partOk, Bool.and_eq_true, Bool.not_eq_true', List.all_eq_true,
    decide_eq_true_eq] at h
  obtain ⟨⟨hne, hlen⟩, hall⟩ := h
  have hx : hexbinmap 'x' = some (bitsBE 4 0) := rfl
  match s, hne with
  | [c1], _ =>
    obtain ⟨e1, l1⟩ := hexbinmap_lower c1 (hall c1 (by simp))
    have hcomp : optionMapM hexbinmap (List.replicate (4 - [c1].length) 'x' ++ [c1]) =
        some [bitsBE 4 0, bitsBE 4 0, bitsBE 4 0, bitsBE 4 (hexDigVal c1)] := by
      show optionMapM hexbinmap ['x', 'x', 'x', c1] = _
      simp [optionMapM, e1, hx]
    have hv : hexVal [c1] = hexDigVal c1 := by
      simp only [hexVal, digitsVal]; omega
    have n1 : hexDigVal c1 / 4096 = 0 := by omega
    have n2 : hexDigVal c1 / 256 = 0 := by omega
    have n3 : hexDigVal c1 / 16 = 0 := by omega
    refine ⟨?_, ?_⟩
    · simp only [hextetBits, hcomp]
      rw [hv, bits16_nibbles, n1, n2, n3]
      simp [List.flatten]
    · rw [hv]; omega
  | [c1, c2], _ =>
    obtain ⟨e1, l1⟩ := hexbinmap_lower c1 (hall c1 (by simp))
    obtain ⟨e2, l2⟩ := hexbinmap_lower c2 (hall c2 (by simp))
    have hcomp : optionMapM hexbinmap (List.replicate (4 - [c1, c2].length) 'x' ++ [c1, c2]) =
        some [bitsBE 4 0, bitsBE 4 0, bitsBE 4 (hexDigVal c1), bitsBE 4 (hexDigVal c2)] := by
      show optionMapM hexbinmap ['x', 'x', c1, c2] = _
      simp [optionMapM, e1, e2, hx]
    have hv : hexVal [c1, c2] = 16 * hexDigVal c1 + hexDigVal c2 := by
      simp only [hexVal, digitsVal]; omega
    have n1 : (16 * hexDigVal c1 + hexDigVal c2) / 4096 = 0 := by omega
    have n2 : (16 * hexDigVal c1 + hexDigVal c2) / 256 = 0 := by omega
    have n3 : (16 * hexDigVal c1 + hexDigVal c2) / 16 = hexDigVal c1 := by omega
    have m4 : (16 * hexDigVal c1 + hexDigVal c2) % 2 ^ 4 = hexDigVal c2 := by omega
    refine ⟨?_, ?_⟩
    · simp only [hextetBits, hcomp]
      rw [hv, bits16_nibbles, n1, n2, n3,
        bitsBE_mod 4 (16 * hexDigVal c1 + hexDigVal c2), m4]
      simp [List.flatten]
    · rw [hv]; omega
  | [c1, c2, c3], _ =>
    obtain ⟨e1, l1⟩ := hexbinmap_lower c1 (hall c1 (by simp))
    obtain ⟨e2, l2⟩ := hexbinmap_lower c2 (hall c2 (by simp))
    obtain ⟨e3, l3⟩ := hexbinmap_lower c3 (hall c3 (by simp))
    have hcomp : optionMapM hexbinmap
        (List.replicate (4 - [c1, c2, c3].length) 'x' ++ [c1, c2, c3]) =
        some [bitsBE 4 0, bitsBE 4 (hexDigVal c1), bitsBE 4 (hexDigVal c2),
          bitsBE 4 (hexDigVal c3)] := by
      show optionMapM hexbinmap ['x', c1, c2, c3] = _
      simp [optionMapM, e1, e2, e3, hx]
    have hv : hexVal [c1, c2, c3] =
        256 * hexDigVal c1 + 16 * hexDigVal c2 + hexDigVal c3 := by
      simp only [hexVal, digitsVal]; omega
    have n1 : (256 * hexDigVal c1 + 16 * hexDigVal c2 + hexDigVal c3) / 4096 = 0 := by omega
    have n2 : (256 * hexDigVal c1 + 16 * hexDigVal c2 + hexDigVal c3) / 256 =
        hexDigVal c1 := by omega
    have n3 : (256 * hexDigVal c1 + 16 * hexDigVal c2 + hexDigVal c3) / 16 % 2 ^ 4 =
        hexDigVal c2 := by omega
    have m4 : (256 * hexDigVal c1 + 16 * hexDigVal c2 + hexDigVal c3) % 2 ^ 4 =
        hexDigVal c3 := by omega
    refine ⟨?_, ?_⟩
    · simp only [hextetBits, hcomp]
      rw [hv, bits16_nibbles, n1, n2,
        bitsBE_mod 4 ((256 * hexDigVal c1 + 16 * hexDigVal c2 + hexDigVal c3) / 16), n3,
        bitsBE_mod 4 (256 * hexDigVal c1 + 16 * hexDigVal c2 + hexDigVal c3), m4]
      simp [List.flatten]
    · rw [hv]; omega
  | [c1, c2, c3, c4], _ =>
    obtain ⟨e1, l1⟩ := hexbinmap_lower c1 (hall c1 (by simp))
    obtain ⟨e2, l2⟩ := hexbinmap_lower c2 (hall c2 (by simp))
    obtain ⟨e3, l3⟩ := hexbinmap_lower c3 (hall c3 (by simp))
    obtain ⟨e4, l4⟩ := hexbinmap_lower c4 (hall c4 (by simp))
    have hcomp : optionMapM hexbinmap
        (List.replicate (4 - [c1, c2, c3, c4].length) 'x' ++ [c1, c2, c3, c4]) =
        some [bitsBE 4 (hexDigVal c1), bitsBE 4 (hexDigVal c2), bitsBE 4 (hexDigVal c3),
          bitsBE 4 (hexDigVal c4)] := by
      show optionMapM hexbinmap [c1, c2, c3, c4] = _
      simp [optionMapM, e1, e2, e3, e4]
    have hv : hexVal [c1, c2, c3, c4] =
        4096 * hexDigVal c1 + 256 * hexDigVal c2 + 16 * hexDigVal c3 + hexDigVal c4 := by
      simp only [hexVal, digitsVal]; omega
    have n1 : (4096 * hexDigVal c1 + 256 * hexDigVal c2 + 16 * hexDigVal c3 + hexDigVal c4)
        / 4096 = hexDigVal c1 := by omega
    have n2 : (4096 * hexDigVal c1 + 256 * hexDigVal c2 + 16 * hexDigVal c3 + hexDigVal c4)
        / 256 % 2 ^ 4 = hexDigVal c2 := by omega
    have n3 : (4096 * hexDigVal c1 + 256 * hexDigVal c2 + 16 * hexDigVal c3 + hexDigVal c4)
        / 16 % 2 ^ 4 = hexDigVal c3 := by omega
    have m4 : (4096 * hexDigVal c1 + 256 * hexDigVal c2 + 16 * hexDigVal c3 + hexDigVal c4)
        % 2 ^ 4 = hexDigVal c4 := by omega
    refine ⟨?_, ?_⟩
    · simp only [hextetBits, hcomp]
      rw [hv, bits16_nibbles, n1,
        bitsBE_mod 4 ((4096 * hexDigVal c1 + 256 * hexDigVal c2 + 16 * hexDigVal c3 +
          hexDigVal c4) / 256), n2,
        bitsBE_mod 4 ((4096 * hexDigVal c1 + 256 * hexDigVal c2 + 16 * hexDigVal c3 +
          hexDigVal c4) / 16), n3,
        bitsBE_mod 4 (4096 * hexDigVal c1 + 256 * hexDigVal c2 + 16 * hexDigVal c3 +
          hexDigVal c4), m4]
      simp [List.flatten]
    · rw [hv]; omega
  | c1 :: c2 :: c3 :: c4 :: c5 :: t, _ => simp at hlen

theorem partOk_ne_nil (s : List Char) (h : partOk s = true) : s ≠ [] := by
  intro he; subst he; simp [partOk] at h

theorem partOk_no_colon_dot (s : List Char) (h : partOk s = true) :
    (∀ c ∈ s, c ≠ ':') ∧ s.contains '.' = false := by
  simp only [partOk, Bool.and_eq_true, List.all_eq_true] at h
  constructor
  · intro c hc he
    subst he
    have := h.2 _ hc
    exact absurd this (by decide)
  · cases h' : s.contains '.'
    · rfl
    · have hm := List.elem_iff.mp h'
      have := h.2 _ hm
      exact absurd this (by decide)

theorem concat_cons_shape (us : List (List Char)) (s : List Char) :
    ∃ v t, us ++ [s] = v :: t := by
  cases us with
  | nil => exact ⟨s, [], rfl⟩
  | cons a b => exact ⟨a, b ++ [s], rfl⟩

theorem joinColon_cons_cons (s u : List Char) (t : List (List Char)) :
    joinColon (s :: u :: t) = s ++ ':' :: joinColon (u :: t) := rfl

theorem joinColon_concat_ne_nil : ∀ (ss : List (List Char)) (s : List Char), s ≠ [] →
    joinColon (ss ++ [s]) ≠ []
  | [], s, h => h
  | u :: us, s, h => by
    obtain ⟨v, t, he⟩ := concat_cons_shape us s
    rw [List.cons_append, he, joinColon_cons_cons]
    simp

theorem joinColon_getLast : ∀ (ss : List (List Char)) (s : List Char), s ≠ [] →
    (joinColon (ss ++ [s])).getLast? = s.getLast?
  | [], s, _ => rfl
  | u :: us, s, h => by
    obtain ⟨v, t, he⟩ := concat_cons_shape us s
    rw [List.cons_append, he, joinColon_cons_cons, ← he,
      List.getLast?_append_of_ne_nil u (by simp)]
    have hne : joinColon (us ++ [s]) ≠ [] := joinColon_concat_ne_nil us s h
    obtain ⟨a, t2, he2⟩ : ∃ a t2, joinColon (us ++ [s]) = a :: t2 := by
      cases h2 : joinColon (us ++ [s]) with
      | nil => exact absurd h2 hne
      | cons a t2 => exact ⟨a, t2, rfl⟩
    rw [he2, List.getLast?_cons_cons, ← he2, joinColon_getLast us s h]

theorem joinColon_head : ∀ (s : List Char) (t : List (List Char)), s ≠ [] →
    (joinColon (s :: t)).head? = s.head?
  | _, [], _ => rfl
  | s, u :: t, h => by
    rw [joinColon_cons_cons]
    exact List.head?_append_of_ne_nil s h

theorem pySplitOn_joinColon : ∀ (ss : List (List Char)),
    (∀ s ∈ ss, ∀ c ∈ s, c ≠ ':') → ss ≠ [] → pySplitOn ':' (joinColon ss) = ss
  | [], _, hne => absurd rfl hne
  | [s], hall, _ => pySplitOn_no_sep ':' s (hall s (by simp))
  | s :: u :: t, hall, _ => by
    rw [joinColon_cons_cons, pySplitOn_append ':' s (joinColon (u :: t)),
      pySplitOn_no_sep ':' s (hall s (by simp)),
      pySplitOn_joinColon (u :: t) (fun p hp => hall p (List.mem_cons_of_mem s hp)) (by simp)]
    rfl

theorem ipv6Parts_hextets_front : ∀ (ss : List (List Char)), ss.all partOk = true →
    ∀ (dc : Bool) (b : List Char) (rest : List (List Char)),
    ipv6Parts dc b (ss ++ rest) =
      ipv6Parts dc (b ++ (ss.map (fun s => bitsBE 16 (hexVal s))).flatten) rest
  | [], _, dc, b, rest => by simp
  | s :: ss, h, dc, b, rest => by
    simp only [List.all_cons, Bool.and_eq_true] at h
    obtain ⟨hs, hss⟩ := h
    have hsne : s ≠ [] := partOk_ne_nil s hs
    have hnd : s.contains '.' = false := (partOk_no_colon_dot s hs).2
    have hbits := (hextetBits_ok s hs).1
    rw [List.cons_append]
    simp only [ipv6Parts, if_neg hsne, hnd, Bool.false_eq_true, if_false, hbits]
    rw [ipv6Parts_hextets_front ss hss dc (b ++ bitsBE 16 (hexVal s)) rest]
    simp [List.append_assoc]

theorem ipv6Parts_hextets (ss : List (List Char)) (h : ss.all partOk = true)
    (dc : Bool) (b : List Char) :
    ipv6Parts dc b ss = .ok (dc, b ++ (ss.map (fun s => bitsBE 16 (hexVal s))).flatten) := by
  have hp := ipv6Parts_hextets_front ss h dc b []
  rw [List.append_nil] at hp
  rw [hp]
  rfl

theorem mem_bitsBE : ∀ (w v : Nat) (c : Char), c ∈ bitsBE w v → c = '0' ∨ c = '1'
  | 0, _, _, h => absurd h (List.not_mem_nil _)
  | w + 1, v, c, h => by
    rw [bitsBE] at h
    rcases List.mem_cons.mp h with h1 | h1
    · by_cases hb : v / 2 ^ w % 2 = 1
      · rw [if_pos hb] at h1
        exact Or.inr h1
      · rw [if_neg hb] at h1
        exact Or.inl h1
    · exact mem_bitsBE w v c h1

theorem colon_not_mem_hexflatten (ss : List (List Char)) :
    ':' ∈ (ss.map (fun s => bitsBE 16 (hexVal s))).flatten → False := by
  intro h
  rw [List.mem_flatten] at h
  obtain ⟨l, hl, hc⟩ := h
  rw [List.mem_map] at hl
  obtain ⟨s, _, rfl⟩ := hl
  rcases mem_bitsBE 16 (hexVal s) ':' hc with h | h <;> exact absurd h (by decide)

theorem length_hexflatten (ss : List (List Char)) :
    ((ss.map (fun s => bitsBE 16 (hexVal s))).flatten).length = 16 * ss.length := by
  induction ss with
  | nil => rfl
  | cons s t ih =>
    simp only [List.map_cons, List.flatten_cons, List.length_append, ih, length_bitsBE,
      List.length_cons]
    ring

theorem flatten_replicate_zero : ∀ z : Nat,
    (List.replicate z (bitsBE 16 0)).flatten = List.replicate (16 * z) '0'
  | 0 => rfl
  | n + 1 => by
    rw [List.replicate_succ, List.flatten_cons, flatten_replicate_zero n,
      show bitsBE 16 0 = List.replicate 16 '0' from by decide,
      show 16 * (n + 1) = 16 + 16 * n from by ring, List.replicate_add]

theorem bits128_map (ss : List (List Char)) :
    bits128 (ss.map hexVal) = (ss.map (fun s => bitsBE 16 (hexVal s))).flatten := by
  simp [bits128, List.map_map, Function.comp_def]

theorem bits128_split (pres sufs : List (List Char)) (z : Nat) :
    bits128 (pres.map hexVal ++ List.replicate z 0 ++ sufs.map hexVal) =
      (pres.map (fun s => bitsBE 16 (hexVal s))).flatten ++
        (List.replicate (16 * z) '0' ++
          (sufs.map (fun s => bitsBE 16 (hexVal s))).flatten) := by
  simp only [bits128, List.map_append, List.flatten_append, List.map_map,
    List.map_replicate]
  rw [flatten_replicate_zero]
  simp [List.append_assoc, Function.comp_def]

theorem indexOf_colon : ∀ (l r : List Char), (':' ∈ l → False) →
    List.indexOf ':' (l ++ ':' :: r) = l.length
  | [], r, _ => List.indexOf_cons_self ':' r
  | c :: l, r, h => by
    have hc : c ≠ ':' := by
      intro he
      exact h (by rw [he]; exact List.mem_cons_self ':' l)
    rw [List.cons_append, List.indexOf_cons_ne _ hc,
      indexOf_colon l r (fun hm => h (List.mem_cons_of_mem c hm)), List.length_cons]

theorem colon_fill_take (l r : List Char) : (l ++ ':' :: r).take l.length = l :=
  List.take_left l (':' :: r)

theorem colon_fill_drop (l r : List Char) : (l ++ ':' :: r).drop (l.length + 1) = r := by
  have he : l ++ ':' :: r = (l ++ [':']) ++ r := by simp
  rw [he]
  exact List.drop_left' (by simp)

theorem drop_two_colon (t : List Char) (h : t.drop (t.length - 2) = [':', ':']) :
    t.getLast? = some ':' := by
  have ht := List.take_append_drop (t.length - 2) t
  rw [h] at ht
  rw [← ht, show (t.take (t.length - 2)) ++ [':', ':'] =
    ((t.take (t.length - 2)) ++ [':']) ++ [':'] from by simp]
  exact List.getLast?_concat ..

theorem ipv6Edit_ok_plain (t : List Char) (hne : t ≠ []) (hh : t.head? ≠ some ':')
    (hl : t.getLast? ≠ some ':') : ipv6Edit t = .ok t := by
  obtain ⟨c, r, rfl⟩ : ∃ c r, t = c :: r := by
    cases t with
    | nil => exact absurd rfl hne
    | cons a r => exact ⟨a, r, rfl⟩
  have hc : c ≠ ':' := by
    intro he
    subst he
    exact hh rfl
  have h2 : c :: r ≠ [':', ':'] := by
    intro he
    injection he with he1 _
    exact hc he1
  have h3 : (c :: r).take 2 ≠ [':', ':'] := by
    intro he
    rw [List.take_succ_cons] at he
    injection he with he1 _
    exact hc he1
  have h5 : (c :: r).drop ((c :: r).length - 2) ≠ [':', ':'] := fun he =>
    hl (drop_two_colon _ he)
  rw [ipv6Edit, if_neg hne, if_neg h2, if_neg h3, if_neg hh, if_neg h5, if_neg hl]

theorem ipv6Edit_ok_lead (js : List Char) (hne : js ≠ []) :
    ipv6Edit (':' :: ':' :: js) = .ok (':' :: js) := by
  have h2 : ':' :: ':' :: js ≠ [':', ':'] := by
    intro he
    have := congrArg List.length he
    simp at this
    exact hne this
  rw [ipv6Edit, if_neg (by simp), if_neg h2, if_pos (by simp)]
  rfl

theorem ipv6Edit_ok_trail (l : List Char) (hh : (l ++ [':', ':']).head? ≠ some ':') :
    ipv6Edit (l ++ [':', ':']) = .ok (l ++ [':']) := by
  have hne : l ++ [':', ':'] ≠ [] := by simp
  have hl0 : l ≠ [] := by
    intro he
    subst he
    exact hh rfl
  obtain ⟨c, r, rfl⟩ : ∃ c r, l = c :: r := by
    cases l with
    | nil => exact absurd rfl hl0
    | cons a r => exact ⟨a, r, rfl⟩
  have hc : c ≠ ':' := by
    intro he
    subst he
    exact hh rfl
  have h2 : (c :: r) ++ [':', ':'] ≠ [':', ':'] := by
    intro he
    have := congrArg List.length he
    simp at this
  have h3 : ((c :: r) ++ [':', ':']).take 2 ≠ [':', ':'] := by
    intro he
    rw [List.cons_append, List.take_succ_cons] at he
    injection he with he1 _
    exact hc he1
  have hdrop : ((c :: r) ++ [':', ':']).drop (((c :: r) ++ [':', ':']).length - 2) =
      [':', ':'] := by
    have hlen : ((c :: r) ++ [':', ':']).length - 2 = (c :: r).length := by simp
    rw [hlen]
    exact List.drop_left (c :: r) [':', ':']
  rw [ipv6Edit, if_neg hne, if_neg h2, if_neg h3, if_neg hh, if_pos hdrop,
    show (c :: r) ++ [':', ':'] = ((c :: r) ++ [':']) ++ [':'] from by simp,
    List.dropLast_concat]

theorem encoder_full (ss : List (List Char)) (h8 : ss.length = 8)
    (hok : ss.all partOk = true) :
    to_bitfield_ipv6 (joinColon ss) =
      .ok ((ss.map (fun s => bitsBE 16 (hexVal s))).flatten) := by
  have hallp : ∀ s ∈ ss, partOk s = true := by
    simpa [List.all_eq_true] using hok
  obtain ⟨s0, ss1, rfl⟩ : ∃ s0 ss1, ss = s0 :: ss1 := by
    cases ss with
    | nil => simp at h8
    | cons a b => exact ⟨a, b, rfl⟩
  have hs0 : partOk s0 = true := hallp s0 (by simp)
  have hs0ne : s0 ≠ [] := partOk_ne_nil s0 hs0
  obtain ⟨c0, s0t, rfl⟩ : ∃ c0 s0t, s0 = c0 :: s0t := by
    cases s0 with
    | nil => exact absurd rfl hs0ne
    | cons a b => exact ⟨a, b, rfl⟩
  have hc0 : c0 ≠ ':' := (partOk_no_colon_dot _ hs0).1 c0 (by simp)
  have hhead : (joinColon ((c0 :: s0t) :: ss1)).head? = some c0 := by
    rw [joinColon_head _ _ hs0ne]
    rfl
  have hh : (joinColon ((c0 :: s0t) :: ss1)).head? ≠ some ':' := by
    rw [hhead]
    intro he
    injection he with he1
    exact hc0 he1
  have hne : joinColon ((c0 :: s0t) :: ss1) ≠ [] := by
    intro he
    rw [he] at hhead
    simp at hhead
  obtain ⟨ss0, sl, hsl⟩ : ∃ ss0 sl, (c0 :: s0t) :: ss1 = ss0 ++ [sl] := by
    rcases List.eq_nil_or_concat ((c0 :: s0t) :: ss1) with h | ⟨l, a, h⟩
    · simp at h
    · rw [List.concat_eq_append] at h
      exact ⟨l, a, h⟩
  have hsl_ok : partOk sl = true :=
    hallp sl (by rw [hsl]; exact List.mem_append_right _ (by simp))
  have hslne : sl ≠ [] := partOk_ne_nil sl hsl_ok
  have hlast : (joinColon ((c0 :: s0t) :: ss1)).getLast? = sl.getLast? := by
    rw [hsl]
    exact joinColon_getLast ss0 sl hslne
  obtain ⟨sl0, ch, hch⟩ : ∃ sl0 ch, sl = sl0 ++ [ch] := by
    rcases List.eq_nil_or_concat sl with h | ⟨l, a, h⟩
    · exact absurd h hslne
    · rw [List.concat_eq_append] at h
      exact ⟨l, a, h⟩
  have hl : (joinColon ((c0 :: s0t) :: ss1)).getLast? ≠ some ':' := by
    rw [hlast, hch, List.getLast?_concat ..]
    intro he
    injection he with he1
    exact (partOk_no_colon_dot sl hsl_ok).1 ch
      (by rw [hch]; exact List.mem_append_right _ (by simp)) he1
  have hedit : ipv6Edit (joinColon ((c0 :: s0t) :: ss1)) =
      .ok (joinColon ((c0 :: s0t) :: ss1)) :=
    ipv6Edit_ok_plain _ hne hh hl
  have hsplit : pySplitOn ':' (joinColon ((c0 :: s0t) :: ss1)) = (c0 :: s0t) :: ss1 :=
    pySplitOn_joinColon _ (fun p hp => (partOk_no_colon_dot p (hallp p hp)).1) (by simp)
  have hloop := ipv6Parts_hextets ((c0 :: s0t) :: ss1) hok false []
  have hflen : ((((c0 :: s0t) :: ss1).map
      (fun s => bitsBE 16 (hexVal s))).flatten).length = 128 := by
    rw [length_hexflatten, h8]
  simp only [to_bitfield_ipv6, hedit, hsplit, hloop, List.nil_append, Bool.false_eq_true,
    if_false]
  rw [if_pos hflen]

theorem joinColon_cons_ne_nil (s : List Char) (t : List (List Char)) (h : s ≠ []) :
    joinColon (s :: t) ≠ [] := by
  intro he
  have hh := joinColon_head s t h
  rw [he] at hh
  cases s with
  | nil => exact h rfl
  | cons a b => simp at hh

theorem tbf_fill (t ip : List Char) (parts : List (List Char)) (l r : List Char)
    (hedit : ipv6Edit t = .ok ip)
    (hsplit : pySplitOn ':' ip = parts)
    (hloop : ipv6Parts false [] parts = .ok (true, l ++ ':' :: r))
    (hcol : ':' ∈ l → False)
    (h128 : l.length + (129 - (l.length + 1 + r.length)) + r.length = 128) :
    to_bitfield_ipv6 t =
      .ok (l ++ (List.replicate (129 - (l.length + 1 + r.length)) '0' ++ r)) := by
  have hL : (l ++ ':' :: r).length = l.length + 1 + r.length := by
    simp
    omega
  have hcond : ((l ++ List.replicate (129 - (l.length + 1 + r.length)) '0') ++ r).length =
      128 := by
    simp
    omega
  simp only [to_bitfield_ipv6, hedit, hsplit, hloop, if_true]
  rw [indexOf_colon l r hcol, colon_fill_take, colon_fill_drop, hL, if_pos hcond]
  simp [List.append_assoc]

theorem joinColon_parts_head (ss : List (List Char)) (hne : ss ≠ [])
    (hok : ∀ s ∈ ss, partOk s = true) :
    ∃ ch, (joinColon ss).head? = some ch ∧ ch ≠ ':' := by
  obtain ⟨s0, ss1, rfl⟩ : ∃ s0 ss1, ss = s0 :: ss1 := by
    cases ss with
    | nil => exact absurd rfl hne
    | cons a b => exact ⟨a, b, rfl⟩
  have hs0 : partOk s0 = true := hok s0 (by simp)
  have hs0ne : s0 ≠ [] := partOk_ne_nil s0 hs0
  obtain ⟨c0, s0t, rfl⟩ : ∃ c0 s0t, s0 = c0 :: s0t := by
    cases s0 with
    | nil => exact absurd rfl hs0ne
    | cons a b => exact ⟨a, b, rfl⟩
  refine ⟨c0, ?_, (partOk_no_colon_dot _ hs0).1 c0 (by simp)⟩
  rw [joinColon_head _ _ hs0ne]
  rfl

theorem joinColon_parts_getLast (ss : List (List Char)) (hne : ss ≠ [])
    (hok : ∀ s ∈ ss, partOk s = true) :
    ∃ ch, (joinColon ss).getLast? = some ch ∧ ch ≠ ':' := by
  obtain ⟨ss0, sl, rfl⟩ : ∃ ss0 sl, ss = ss0 ++ [sl] := by
    rcases List.eq_nil_or_concat ss with h | ⟨l, a, h⟩
    · exact absurd h hne
    · rw [List.concat_eq_append] at h
      exact ⟨l, a, h⟩
  have hsl : partOk sl = true := hok sl (List.mem_append_right _ (by simp))
  have hslne : sl ≠ [] := partOk_ne_nil sl hsl
  obtain ⟨sl0, ch, rfl⟩ : ∃ sl0 ch, sl = sl0 ++ [ch] := by
    rcases List.eq_nil_or_concat sl with h | ⟨l, a, h⟩
    · exact absurd h hslne
    · rw [List.concat_eq_append] at h
      exact ⟨l, a, h⟩
  refine ⟨ch, ?_, (partOk_no_colon_dot _ hsl).1 ch (List.mem_append_right _ (by simp))⟩
  rw [joinColon_getLast ss0 _ hslne, List.getLast?_concat ..]

theorem encoder_elided (pres sufs : List (List Char)) (z : Nat) (hz : 1 ≤ z)
    (hpok : pres.all partOk = true) (hsok : sufs.all partOk = true)
    (hlen : pres.length + z + sufs.length = 8) :
    to_bitfield_ipv6 (joinColon pres ++ ':' :: ':' :: joinColon sufs) =
      .ok ((pres.map (fun s => bitsBE 16 (hexVal s))).flatten ++
        (List.replicate (16 * z) '0' ++
          (sufs.map (fun s => bitsBE 16 (hexVal s))).flatten)) := by
  have hallp : ∀ s ∈ pres, partOk s = true := by simpa [List.all_eq_true] using hpok
  have halls : ∀ s ∈ sufs, partOk s = true := by simpa [List.all_eq_true] using hsok
  rcases pres with _ | ⟨u, us⟩ <;> rcases sufs with _ | ⟨v, vs⟩
  · have hz8 : z = 8 := by
      simp at hlen
      omega
    subst hz8
    decide
  · have hv : partOk v = true := halls v (by simp)
    have hvne : v ≠ [] := partOk_ne_nil v hv
    have hjsne : joinColon (v :: vs) ≠ [] := joinColon_cons_ne_nil v vs hvne
    simp only [show joinColon ([] : List (List Char)) = [] from rfl, List.nil_append,
      List.map_nil, List.flatten_nil]
    have hedit := ipv6Edit_ok_lead (joinColon (v :: vs)) hjsne
    have hsplit : pySplitOn ':' (':' :: joinColon (v :: vs)) = [] :: v :: vs := by
      rw [pySplitOn_cons_sep, pySplitOn_joinColon (v :: vs)
        (fun p hp => (partOk_no_colon_dot p (halls p hp)).1) (by simp)]
    have hloop : ipv6Parts false [] ([] :: v :: vs) =
        .ok (true, [] ++ ':' :: ((v :: vs).map (fun s => bitsBE 16 (hexVal s))).flatten) := by
      have h1 : ipv6Parts false [] ([] :: v :: vs) = ipv6Parts true [':'] (v :: vs) := rfl
      rw [h1, ipv6Parts_hextets (v :: vs) hsok true [':']]
      simp
    have h128 : List.length ([] : List Char) +
        (129 - (List.length ([] : List Char) + 1 +
          (((v :: vs).map (fun s => bitsBE 16 (hexVal s))).flatten).length)) +
        (((v :: vs).map (fun s => bitsBE 16 (hexVal s))).flatten).length = 128 := by
      rw [length_hexflatten]
      simp only [List.length_cons, List.length_nil]
      simp at hlen
      omega
    have hfill := tbf_fill _ _ _ [] _ hedit hsplit hloop (by simp) h128
    rw [hfill]
    have hcount : 129 - (List.length ([] : List Char) + 1 +
        (((v :: vs).map (fun s => bitsBE 16 (hexVal s))).flatten).length) = 16 * z := by
      rw [length_hexflatten]
      simp only [List.length_cons, List.length_nil]
      simp at hlen
      omega
    rw [hcount]
    simp
  · have hu : partOk u = true := hallp u (by simp)
    have hune : u ≠ [] := partOk_ne_nil u hu
    have hjpne : joinColon (u :: us) ≠ [] := joinColon_cons_ne_nil u us hune
    obtain ⟨c0, hc0h, hc0⟩ := joinColon_parts_head (u :: us) (by simp) hallp
    simp only [show joinColon ([] : List (List Char)) = [] from rfl,
      List.map_nil, List.flatten_nil]
    have hh : (joinColon (u :: us) ++ [':', ':']).head? ≠ some ':' := by
      rw [List.head?_append_of_ne_nil _ hjpne, hc0h]
      intro he
      injection he with he1
      exact hc0 he1
    have hedit := ipv6Edit_ok_trail (joinColon (u :: us)) hh
    have hsplit : pySplitOn ':' (joinColon (u :: us) ++ [':']) = (u :: us) ++ [[]] := by
      rw [show (joinColon (u :: us) ++ [':'] : List Char) =
          joinColon (u :: us) ++ ':' :: [] from rfl,
        pySplitOn_append ':' (joinColon (u :: us)) [],
        pySplitOn_joinColon (u :: us)
          (fun p hp => (partOk_no_colon_dot p (hallp p hp)).1) (by simp)]
      rfl
    have hloop : ipv6Parts false [] ((u :: us) ++ [[]]) =
        .ok (true,
          ((u :: us).map (fun s => bitsBE 16 (hexVal s))).flatten ++ ':' :: []) := by
      rw [ipv6Parts_hextets_front (u :: us) hpok false [] [[]]]
      rfl
    have h128 : (((u :: us).map (fun s => bitsBE 16 (hexVal s))).flatten).length +
        (129 - ((((u :: us).map (fun s => bitsBE 16 (hexVal s))).flatten).length + 1 +
          List.length ([] : List Char))) +
        List.length ([] : List Char) = 128 := by
      rw [length_hexflatten]
      simp only [List.length_cons, List.length_nil]
      simp at hlen
      omega
    have hfill := tbf_fill _ _ _ _ []
      hedit hsplit hloop (colon_not_mem_hexflatten (u :: us)) h128
    rw [hfill]
    have hcount : 129 - ((((u :: us).map (fun s => bitsBE 16 (hexVal s))).flatten).length +
        1 + List.length ([] : List Char)) = 16 * z := by
      rw [length_hexflatten]
      simp only [List.length_cons, List.length_nil]
      simp at hlen
      omega
    rw [hcount]
  · have hu : partOk u = true := hallp u (by simp)
    have hune : u ≠ [] := partOk_ne_nil u hu
    have hv : partOk v = true := halls v (by simp)
    have hvne : v ≠ [] := partOk_ne_nil v hv
    have hjpne : joinColon (u :: us) ≠ [] := joinColon_cons_ne_nil u us hune
    have hjsne : joinColon (v :: vs) ≠ [] := joinColon_cons_ne_nil v vs hvne
    obtain ⟨c0, hc0h, hc0⟩ := joinColon_parts_head (u :: us) (by simp) hallp
    obtain ⟨cl, hclh, hcl⟩ := joinColon_parts_getLast (v :: vs) (by simp) halls
    have htne : joinColon (u :: us) ++ ':' :: ':' :: joinColon (v :: vs) ≠ [] := by
      intro he
      exact hjpne (List.append_eq_nil.mp he).1
    have hh : (joinColon (u :: us) ++ ':' :: ':' :: joinColon (v :: vs)).head? ≠
        some ':' := by
      rw [List.head?_append_of_ne_nil _ hjpne, hc0h]
      intro he
      injection he with he1
      exact hc0 he1
    have hl : (joinColon (u :: us) ++ ':' :: ':' :: joinColon (v :: vs)).getLast? ≠
        some ':' := by
      obtain ⟨a0, js0, hjs⟩ : ∃ a0 js0, joinColon (v :: vs) = a0 :: js0 := by
        cases hj : joinColon (v :: vs) with
        | nil => exact absurd hj hjsne
        | cons a b => exact ⟨a, b, rfl⟩
      rw [List.getLast?_append_of_ne_nil _ (by simp), hjs, List.getLast?_cons_cons,
        List.getLast?_cons_cons, ← hjs, hclh]
      intro he
      injection he with he1
      exact hcl he1
    have hedit := ipv6Edit_ok_plain _ htne hh hl
    have hsplit : pySplitOn ':'
        (joinColon (u :: us) ++ ':' :: ':' :: joinColon (v :: vs)) =
        (u :: us) ++ [] :: v :: vs := by
      rw [pySplitOn_append ':' (joinColon (u :: us)) (':' :: joinColon (v :: vs)),
        pySplitOn_joinColon (u :: us)
          (fun p hp => (partOk_no_colon_dot p (hallp p hp)).1) (by simp),
        pySplitOn_cons_sep,
        pySplitOn_joinColon (v :: vs)
          (fun p hp => (partOk_no_colon_dot p (halls p hp)).1) (by simp)]
    have hloop : ipv6Parts false [] ((u :: us) ++ [] :: v :: vs) =
        .ok (true, ((u :: us).map (fun s => bitsBE 16 (hexVal s))).flatten ++ ':' ::
          ((v :: vs).map (fun s => bitsBE 16 (hexVal s))).flatten) := by
      rw [ipv6Parts_hextets_front (u :: us) hpok false [] ([] :: v :: vs),
        show ipv6Parts false
            ([] ++ ((u :: us).map (fun s => bitsBE 16 (hexVal s))).flatten)
            ([] :: v :: vs) =
          ipv6Parts true
            (([] ++ ((u :: us).map (fun s => bitsBE 16 (hexVal s))).flatten) ++ [':'])
            (v :: vs) from rfl,
        ipv6Parts_hextets (v :: vs) hsok true _]
      simp
    have h128 : (((u :: us).map (fun s => bitsBE 16 (hexVal s))).flatten).length +
        (129 - ((((u :: us).map (fun s => bitsBE 16 (hexVal s))).flatten).length + 1 +
          (((v :: vs).map (fun s => bitsBE 16 (hexVal s))).flatten).length)) +
        (((v :: vs).map (fun s => bitsBE 16 (hexVal s))).flatten).length = 128 := by
      rw [length_hexflatten, length_hexflatten]
      simp only [List.length_cons]
      simp at hlen
      omega
    have hfill := tbf_fill _ _ _ _ _
      hedit hsplit hloop (colon_not_mem_hexflatten (u :: us)) h128
    rw [hfill]
    have hcount : 129 - ((((u :: us).map (fun s => bitsBE 16 (hexVal s))).flatten).length +
        1 + (((v :: vs).map (fun s => bitsBE 16 (hexVal s))).flatten).length) = 16 * z := by
      rw [length_hexflatten, length_hexflatten]
      simp only [List.length_cons]
      simp at hlen
      omega
    rw [hcount]

theorem rendersTo_encodes (t : List Char) (hs : List Nat) (h8 : hs.length = 8)
    (hr : rendersTo t hs) : to_bitfield_ipv6 t = .ok (bits128 hs) := by
  rcases hr with ⟨ss, hok, hmap, rfl⟩ | ⟨pres, sufs, z, hz, hpok, hsok, hhs, rfl⟩
  · have hlen : ss.length = 8 := by
      rw [← h8, ← hmap, List.length_map]
    rw [encoder_full ss hlen hok, ← hmap, bits128_map]
  · have hlen : pres.length + z + sufs.length = 8 := by
      rw [hhs] at h8
      simp [List.length_append, List.length_replicate, List.length_map] at h8
      omega
    rw [encoder_elided pres sufs z hz hpok hsok hlen, hhs, bits128_split]

/-- C6 counterexample: the claim covers representations that differ in
the letter case of hex digits, but `hexbinmap` only has lowercase
keys: `::FFFF` raises `KeyError` while `::ffff`, the same address in
lowercase, encodes successfully. -/
theorem C6_counterexample :
    to_bitfield_ipv6 "::FFFF".data = .error .keyError ∧
    to_bitfield_ipv6 "::ffff".data =
      .ok (List.replicate 112 '0' ++ List.replicate 16 '1') := by
  constructor
  · decide
  · decide

/-- C6 (amended to lowercase representations): any two lowercase
textual renderings of the same eight-hextet IPv6 address — whether
hextets carry leading-zero padding up to width four, and whether or
not a `::` elision stands for a run of zero hextets — are both
accepted by `to_bitfield_ipv6`, and both return the same 128-bit
string, namely the big-endian 16-bit renderings of the eight hextet
values.  (With uppercase digits the original claim fails, see the
counterexample.) -/
theorem C6_lowercase_determinism (t1 t2 : List Char) (hs : List Nat)
    (h8 : hs.length = 8) (h1 : rendersTo t1 hs) (h2 : rendersTo t2 hs) :
    to_bitfield_ipv6 t1 = to_bitfield_ipv6 t2 ∧
      to_bitfield_ipv6 t1 = .ok (bits128 hs) := by
  have e1 := rendersTo_encodes t1 hs h8 h1
  have e2 := rendersTo_encodes t2 hs h8 h2
  exact ⟨e1.trans e2.symm, e1⟩

theorem C6_witness :
    to_bitfield_ipv6 "0:0:0:0:0:0:0:1".data = to_bitfield_ipv6 "::1".data ∧
    to_bitfield_ipv6 "0:0:0:0:0:0:0:1".data =
      .ok (bits128 [0, 0, 0, 0, 0, 0, 0, 1]) := by
  have hr1 : rendersTo "0:0:0:0:0:0:0:1".data [0, 0, 0, 0, 0, 0, 0, 1] :=
    Or.inl ⟨[['0'], ['0'], ['0'], ['0'], ['0'], ['0'], ['0'], ['1']],
      by decide, by decide, by decide⟩
  have hr2 : rendersTo "::1".data [0, 0, 0, 0, 0, 0, 0, 1] :=
    Or.inr ⟨[], [['1']], 7, by decide, by decide, by decide, by decide, by decide⟩
  exact C6_lowercase_determinism _ _ _ (by decide) hr1 hr2
